import Mathlib

/-!
# AIS-vib: sample ring (FIFO), spectral transform (FFT) and device lifecycle

A shallow embedding of `src/Device/FIFO.h`, `src/DSP/FFT.h`,
`src/Device/AIRSPYHF.cpp` and `src/Device/HACKRF.cpp`, with the properties of
the specification proved about it.

Conventions of the embedding.

* C++ `int` values are `Int`; `/` and `%` of C++ truncate towards zero and are
  `Int.tdiv` and `Int.tmod`.  Signed overflow is undefined behaviour in the
  source and is not modelled: sizes are taken to fit in an `int`.  The left
  shifts of `FFT::rev` are modelled on 32 bits as well (`FFT.rev32`).
* `std::vector<T>` is `List T`; a `T*` argument is a function `Nat → T` from
  the offset to the element stored there.
* `FIFO<T>` copies with `std::memcpy` and counts in bytes, so `T` stands for a
  one-byte element type (the ring is used at `FIFO<char>`).
* The sequential semantics of one thread is modelled: the mutex and the
  condition variable have no effect on the state; `Wait` on an empty ring
  enters the timed wait and times out.
-/

/-! ## `src/Device/FIFO.h` -/

/-- The data members of `FIFO<T>`: backing store, head and tail offsets, the
(atomic) block counter and the two geometry fields. -/
structure FIFO (T : Type) where
  _data : List T
  head : Int
  tail : Int
  count : Int
  BLOCK_SIZE : Int
  N_BLOCKS : Int
deriving DecidableEq, Repr

namespace FIFO

variable {T : Type}

/-- The call `std::vector::resize(n)`: keeps the first `n` elements and pads
with value-initialised elements. -/
def resize [Inhabited T] (v : List T) (n : Nat) : List T :=
  v.take n ++ List.replicate (n - v.length) default

/-- The call `std::memcpy(dst + off, src, n)` on a vector `dst`: elements
`src[0..n)` are stored at `dst[off..off+n)`. -/
def memcpy (dst : List T) (off : Nat) (src : Nat → T) : Nat → List T
  | 0 => dst
  | n + 1 => (memcpy dst off src n).set (off + n) (src n)

/-- `FIFO::Init(bs, fs)`. -/
def Init [Inhabited T] (f : FIFO T) (bs fs : Int) : FIFO T :=
  { _data := resize f._data (fs * bs).toNat
    head := 0
    tail := 0
    count := 0
    BLOCK_SIZE := bs
    N_BLOCKS := fs }

/-- `FIFO::BlockSize()`. -/
def BlockSize (f : FIFO T) : Int := f.BLOCK_SIZE

/-- `FIFO::Halt()`: the counter becomes the sentinel `-1`. -/
def Halt (f : FIFO T) : FIFO T := { f with count := -1 }

/-- Whether `FIFO::Wait()` enters the timed wait (`count == 0` on entry). -/
def WaitBlocks (f : FIFO T) : Bool := decide (f.count = 0)

/-- The result of `FIFO::Wait()`: `count > 0`.  In a sequential run nothing
changes the counter during the timed wait, so the result is that of the
counter on entry. -/
def Wait (f : FIFO T) : Bool := decide (f.count > 0)

/-- `FIFO::Front()`: the offset into the backing store of the returned
pointer `_data.data() + head`. -/
def Front (f : FIFO T) : Int := f.head

/-- The block the consumer reads through `Front()`: `BLOCK_SIZE` elements
from offset `head`. -/
def FrontBlock (f : FIFO T) : List T :=
  (f._data.drop (Front f).toNat).take f.BLOCK_SIZE.toNat

/-- `FIFO::Pop()`. -/
def Pop (f : FIFO T) : FIFO T :=
  if f.count > 0 then
    { f with
      head := (f.head + f.BLOCK_SIZE).tmod (f._data.length : Int)
      count := f.count - 1 }
  else f

/-- `FIFO::Full()`. -/
def Full (f : FIFO T) : Bool := decide (f.count = f.N_BLOCKS)

/-- The copy of `FIFO::Push` (the `if (wrap <= 0) ... else ...` statement):
one `memcpy` at the tail, or two when the write straddles the end of the
backing store. -/
def copy (f : FIFO T) (data : Nat → T) (sz : Int) : List T :=
  let wrap := f.tail + sz - (f._data.length : Int)
  if wrap ≤ 0 then memcpy f._data f.tail.toNat data sz.toNat
  else
    memcpy (memcpy f._data f.tail.toNat data (sz - wrap).toNat)
      0 (fun i => data (i + (sz - wrap).toNat)) wrap.toNat

/-- `FIFO::Push(data, sz)`: the returned flag and the state afterwards.  The
loop `while (block_ready--) count++` adds `block_ready` to the counter. -/
def Push (f : FIFO T) (data : Nat → T) (sz : Int) : Bool × FIFO T :=
  if f.count = -1 then (false, f)
  else if sz ≤ 0 then (true, f)
  else
    let block_ready := (f.tail.tmod f.BLOCK_SIZE + sz).tdiv f.BLOCK_SIZE
    let block_needed := (f.tail.tmod f.BLOCK_SIZE + sz - 1).tdiv f.BLOCK_SIZE + 1
    if f.count + block_needed > f.N_BLOCKS then (false, f)
    else
      (true,
        { f with
          _data := copy f data sz
          count := f.count + (block_ready.toNat : Int)
          tail := (f.tail + sz).tmod (f._data.length : Int) })

/-- One call on the ring. -/
inductive Op (T : Type) where
  | Push (data : Nat → T) (sz : Int)
  | Pop
  | Wait
  | Full
  | Front
  | Halt

/-- The state after one call. -/
def step (f : FIFO T) : Op T → FIFO T
  | .Push data sz => (Push f data sz).2
  | .Pop => Pop f
  | .Wait => f
  | .Full => f
  | .Front => f
  | .Halt => Halt f

/-- The state after a sequential run of calls. -/
def run (f : FIFO T) (ops : List (Op T)) : FIFO T := ops.foldl step f

/-- The elements `data[0..sz)` a `Push(data, sz)` call hands over. -/
def bytes (data : Nat → T) (sz : Int) : List T := (List.range sz.toNat).map data

/-- A pointer to a buffer holding the byte sequence `l`: the element at
offset `i` is `l[i]`. -/
def ptr [Inhabited T] (l : List T) : Nat → T := fun i => l.getD i default

/-- The data of the `Push` calls of a run that returned true, concatenated in
call order. -/
def pushed (f : FIFO T) : List (Op T) → List T
  | [] => []
  | .Push data sz :: ops =>
      (if (Push f data sz).1 then bytes data sz else []) ++ pushed (Push f data sz).2 ops
  | op :: ops => pushed (step f op) ops

/-- The blocks the consumer reads in a run: the block at `Front()` right
before each `Pop` that finds the counter positive, concatenated in pop
order. -/
def popped (f : FIFO T) : List (Op T) → List T
  | [] => []
  | .Pop :: ops => (if f.count > 0 then FrontBlock f else []) ++ popped (Pop f) ops
  | op :: ops => popped (step f op) ops

/-- The number of `Pop` calls of a run that find the counter positive. -/
def pops (f : FIFO T) : List (Op T) → Nat
  | [] => 0
  | .Pop :: ops => (if f.count > 0 then 1 else 0) + pops (Pop f) ops
  | op :: ops => pops (step f op) ops

/-- The run contains no `Halt` call. -/
def noHalt : List (Op T) → Bool
  | [] => true
  | .Halt :: _ => false
  | _ :: ops => noHalt ops

/-- A ring object as constructed, before `Init`: empty store, default
geometry.  The counter of a constructed object is indeterminate; `Init` sets
it, and `0` stands for it here. -/
def fresh (T : Type) : FIFO T :=
  { _data := [], head := 0, tail := 0, count := 0, BLOCK_SIZE := 16 * 16384, N_BLOCKS := 2 }

/-- The consumer loop: `n` rounds of `Wait()` followed by `Pop()`. -/
def rounds : Nat → List (Op T)
  | 0 => []
  | n + 1 => Op.Wait :: Op.Pop :: rounds n

/-- The ring against a logically infinite buffer: `s` is the stream of all
bytes accepted so far and `P` the number of blocks consumed.  The head is at
stream position `P * B`, the tail at `s.length`, both modulo the store
length, and the store holds the unconsumed part of the stream. -/
structure Sim (f : FIFO T) (B NB P : Nat) (s : List T) : Prop where
  hB : 0 < B
  hNB : 0 < NB
  bs : f.BLOCK_SIZE = (B : Int)
  nb : f.N_BLOCKS = (NB : Int)
  size : f._data.length = NB * B
  head : f.head = ((P * B % (NB * B) : Nat) : Int)
  tail : f.tail = ((s.length % (NB * B) : Nat) : Int)
  count : f.count = -1 ∨ f.count = ((s.length / B : Nat) : Int) - (P : Int)
  lo : P * B ≤ s.length
  hi : s.length ≤ P * B + NB * B
  content : ∀ x, P * B ≤ x → x < s.length → f._data[x % (NB * B)]? = s[x]?

end FIFO

/-! ## `src/Device/AIRSPYHF.cpp` -/

namespace AIRSPYHF

/-- The conversion `(int)r` of a `uint32_t` value: the value modulo `2^32` in
the range `[-2^31, 2^31)`. -/
def toInt (r : Nat) : Int := Int.bmod (r : Int) (2 ^ 32)

/-- The conversion of an `int` to `uint32_t`: the value modulo `2^32`. -/
def toUInt32 (i : Int) : Nat := (i % 2 ^ 32).toNat

/-- The body of the loop `for (auto r : rates)` of `AIRSPYHF::setDefaultRate`
on the pair `(rate, mindelta)`; `sample_rate` is the value returned by
`getSampleRate()`. -/
def setDefaultRate.body (sample_rate : Nat) (st : Int × Int) (r : Nat) : Int × Int :=
  let delta : Int := ((toInt r - toInt sample_rate).natAbs : Int)
  if delta < st.2 then (toInt r, delta) else st

/-- `AIRSPYHF::setDefaultRate()`: `rates` is the list the device reports
through `airspyhf_get_samplerates`, `sample_rate` the rate requested before
(`getSampleRate()`); the result is the argument of `setSampleRate`, or `none`
when the function throws because the list is empty. -/
def setDefaultRate (rates : List Nat) (sample_rate : Nat) : Option Nat :=
  match rates with
  | [] => none
  | r0 :: _ =>
    some (toUInt32 (rates.foldl (setDefaultRate.body sample_rate) (toInt r0, toInt r0)).1)

end AIRSPYHF

/-! ## The device lifecycle: `src/Device/AIRSPYHF.cpp`, `src/Device/HACKRF.cpp`

The base class `Device` (`Device.h`) and the helpers of `Util` are not among
the sources; the base class is modelled from the specification (section 4.2)
and the helpers are parameters. -/

/-- Modelled from the spec: the `DeviceState` of the device lifecycle
(`Device.h` is missing), "one of `Closed → Opened → Configured → Streaming →
Stopped`", `Configured` being implicit. -/
inductive DeviceState where
  | Closed
  | Opened
  | Streaming
  | Stopped
deriving DecidableEq, Repr

/-- The commands the lifecycle operations issue to the vendor libraries. -/
inductive VendorCall where
  | airspyhf_stop
  | airspyhf_close
  | hackrf_stop_rx
  | hackrf_close
deriving DecidableEq, Repr

/-- Modelled from the spec: the members of the base class `Device`
(`Device.h` is missing) the backends use: the lifecycle state, the `lost`
flag and the sample rate.  `calls` records the vendor commands issued so far,
in order. -/
structure Device where
  state : DeviceState
  lost : Bool
  sample_rate : Nat
  calls : List VendorCall
deriving DecidableEq, Repr

namespace Device

/-- Modelled from the spec: `Device::isStreaming()` (`Device.h` is missing),
"reports `Streaming` state". -/
def isStreaming (d : Device) : Bool := decide (d.state = DeviceState.Streaming)

/-- Modelled from the spec: `Device::setSampleRate` (`Device.h` is missing),
the setter of the sample rate. -/
def setSampleRate (d : Device) (s : Nat) : Device := { d with sample_rate := s }

/-- Modelled from the spec: `Device::Open(handle)` (`Device.h` is missing),
"on success transitions to `Opened`". -/
def Open (d : Device) (_h : Nat) : Device := { d with state := DeviceState.Opened }

/-- Modelled from the spec: `Device::Play()` (`Device.h` is missing), "marks
state `Streaming`". -/
def Play (d : Device) : Device := { d with state := DeviceState.Streaming }

/-- Modelled from the spec: `Device::Stop()` (`Device.h` is missing), "no-op
unless currently `Streaming`; ... transitions to `Stopped`". -/
def Stop (d : Device) : Device :=
  if isStreaming d then { d with state := DeviceState.Stopped } else d

/-- Modelled from the spec: `Device::Close()` (`Device.h` is missing),
"`Close()` while `Streaming` first stops the stream before releasing the
resource" and "returns to `Closed`".  `Stop` is virtual: the argument `stop`
is the `Stop` of the backend. -/
def Close (stop : Device → Device) (d : Device) : Device :=
  let d1 := if isStreaming d then stop d else d
  { d1 with state := DeviceState.Closed }

end Device

namespace AIRSPYHF

/-- `AIRSPYHF::Stop()`. -/
def Stop (d : Device) : Device :=
  if Device.isStreaming d then
    let d1 := Device.Stop d
    { d1 with calls := d1.calls ++ [VendorCall.airspyhf_stop] }
  else d

/-- `AIRSPYHF::Close()`. -/
def Close (d : Device) : Device :=
  let d1 := Device.Close Stop d
  { d1 with calls := d1.calls ++ [VendorCall.airspyhf_close] }

/-- `AIRSPYHF::isStreaming()`: the result and the device afterwards.  `hw1`
and `hw2` are the values `airspyhf_is_streaming(dev)` returns in the first
and in the second statement; by the short circuit of `&&` each is read only
when `Device::isStreaming()` holds. -/
def isStreaming (d : Device) (hw1 hw2 : Int) : Bool × Device :=
  let d1 := if Device.isStreaming d && hw1 != 1 then { d with lost := true } else d
  (Device.isStreaming d1 && hw2 == 1, d1)

end AIRSPYHF

/-- The fields of `hackrf_device_list_t` that `HACKRF.cpp` reads: the array
`serial_numbers` (an entry may be a null pointer) and `devicecount`. -/
structure hackrf_device_list where
  serial_numbers : List (Option String)
  devicecount : Nat
deriving DecidableEq, Repr

/-- The helpers of `Util` (not among the sources) that `HACKRF::Set` calls:
`Util::Convert::toUpper`, `Util::Parse::Integer(arg, min, max)` and
`Util::Parse::Switch(arg)`; a parse helper may throw. -/
structure Util where
  toUpper : String → String
  Integer : String → Int → Int → Except String Int
  Switch : String → Except String Bool

/-- The members of the class `HACKRF`: the base class, the device list of
the last enumeration (a null pointer before it) and the settings. -/
structure HACKRF where
  base : Device
  list : Option hackrf_device_list
  LNA_Gain : Int
  VGA_Gain : Int
  preamp : Bool
deriving DecidableEq, Repr

namespace HACKRF

/-- `HACKRF::Open(h)`.  `open_by_serial` stands for `hackrf_open_by_serial`
(true for `HACKRF_SUCCESS`).  The outer `none` is a read of
`serial_numbers[h]` outside the array, after which nothing is defined;
`Except.error` is a thrown message. -/
def Open (open_by_serial : Option String → Bool) (d : HACKRF) (h : Nat) :
    Option (Except String HACKRF) :=
  match d.list with
  | none => some (Except.error "HACKRF: cannot open device, internal error.")
  | some list =>
    if h > list.devicecount then some (Except.error "HACKRF: cannot open device.")
    else
      match list.serial_numbers[h]? with
      | none => none
      | some serial =>
        if open_by_serial serial ≠ true then some (Except.error "HACKRF: cannot open device.")
        else
          some (Except.ok { d with base := Device.Open (Device.setSampleRate d.base 6000000) h })

/-- `HACKRF::Stop()`. -/
def Stop (d : Device) : Device :=
  if Device.isStreaming d then
    let d1 := Device.Stop d
    { d1 with calls := d1.calls ++ [VendorCall.hackrf_stop_rx] }
  else d

/-- `HACKRF::Close()`. -/
def Close (d : HACKRF) : HACKRF :=
  let b := Device.Close Stop d.base
  { d with base := { b with calls := b.calls ++ [VendorCall.hackrf_close] } }

/-- `HACKRF::Set(option, arg)`; `Except.error` is a thrown message. -/
def Set (U : Util) (d : HACKRF) (option arg : String) : Except String HACKRF :=
  let option := U.toUpper option
  let arg := U.toUpper arg
  if option = "LNA" then
    (U.Integer arg 0 40).map fun v => { d with LNA_Gain := ((v + 4).tdiv 8) * 8 }
  else if option = "VGA" then
    (U.Integer arg 0 62).map fun v => { d with VGA_Gain := ((v + 1).tdiv 2) * 2 }
  else if option = "PREAMP" then
    (U.Switch arg).map fun b => { d with preamp := b }
  else Except.error "Invalid setting for HACKRF."

end HACKRF

/-! ## `src/DSP/FFT.h` -/

namespace FFT

/-- `FFT::log2`: the number of times `x >>= 1` is non-zero. -/
def log2 (x : Nat) : Nat :=
  if x / 2 ≠ 0 then log2 (x / 2) + 1 else 0
termination_by x
decreasing_by omega

/-- The table `rev4` of `FFT::rev`. -/
def rev4 : List Nat := [0, 8, 4, 12, 2, 10, 6, 14, 1, 9, 5, 13, 3, 11, 7, 15]

/-- The body of the first loop of `FFT::rev` on the pair `(y, x)`:
`y <<= 4; y |= rev4[x & 15]; x >>= 4`. -/
def rev.step4 (st : Nat × Nat) : Nat × Nat :=
  ((st.1 <<< 4) ||| rev4.getD (st.2 &&& 15) 0, st.2 >>> 4)

/-- The body of the second loop of `FFT::rev` on the pair `(y, x)`:
`y <<= 1; y |= (x & 1); x >>= 1`. -/
def rev.step1 (st : Nat × Nat) : Nat × Nat :=
  ((st.1 <<< 1) ||| (st.2 &&& 1), st.2 >>> 1)

/-- `FFT::rev(x, logN)` in exact integer arithmetic: the first loop runs
`logN >> 2` times, the second for `i` from `(logN >> 2) << 2` up to `logN`.
No shift wraps here; this is the value of the source for `logN ≤ 31`, the
sizes of a vector an `int` can index (`rev32_eq_rev`).  The 32-bit `int` of
the source is `rev32`. -/
def rev (x logN : Nat) : Nat :=
  (rev.step1^[logN - ((logN >>> 2) <<< 2)] (rev.step4^[logN >>> 2] (0, x))).1

/-- The value of the 32-bit `int` with the bit pattern `p`. -/
def toInt32 (p : Nat) : Int := Int.bmod (p : Int) (2 ^ 32)

/-- The body of the first loop of `FFT::rev` on 32-bit `int`s, `y` carried as
its bit pattern: `y <<= 4` keeps the low 32 bits. -/
def rev32.step4 (st : Nat × Nat) : Nat × Nat :=
  (((st.1 <<< 4) % 2 ^ 32) ||| rev4.getD (st.2 &&& 15) 0, st.2 >>> 4)

/-- The body of the second loop of `FFT::rev` on 32-bit `int`s, `y` carried
as its bit pattern: `y <<= 1` keeps the low 32 bits. -/
def rev32.step1 (st : Nat × Nat) : Nat × Nat :=
  (((st.1 <<< 1) % 2 ^ 32) ||| (st.2 &&& 1), st.2 >>> 1)

/-- `FFT::rev(x, logN)` on the 32-bit `int` of the source, for arguments that
are not negative: `y` is carried as its bit pattern, a left shift keeps the
low 32 bits, and the pattern is read as a two's complement value at the
return. -/
def rev32 (x logN : Nat) : Int :=
  toInt32 (rev32.step1^[logN - ((logN >>> 2) <<< 2)] (rev32.step4^[logN >>> 2] (0, x))).1

/-- The plain reversal of the `s` low bits of `x`, one bit at a time: bit `i`
of the result is bit `s - 1 - i` of `x`. -/
def brev : Nat → Nat → Nat
  | 0, _ => 0
  | s + 1, x => (x % 2) * 2 ^ s + brev s (x / 2)

variable {C : Type} [CommRing C]

/-- `std::vector::resize(n)` on a vector of complex numbers: new elements are
value-initialised (zero). -/
def resize (v : List C) (n : Nat) : List C :=
  v.take n ++ List.replicate (n - v.length) 0

/-- `FFT::calcOmega(Omega, N)`.  The parameter `cis s N` stands for
`std::polar(T(1), T(-2.0*PI) * T(s) / T(N))`. -/
def calcOmega (cis : Nat → Nat → C) (Omega : List C) (N : Nat) : List C :=
  (List.range N).foldl (fun Om s => Om.set s (cis s N)) (resize Omega N)

/-- The body of the innermost loop of `FFT::fft` at the indices `a = k + j`
and `b = k + j + m2`: `t = o * x[b]; x[b] = x[a] - t; x[a] += t`.  An access
outside the vector gives `none`. -/
def butterfly (o : C) (a b : Nat) (x : List C) : Option (List C) := do
  let xb ← x[b]?
  let t := o * xb
  let xa ← x[a]?
  let x1 := x.set b (xa - t)
  let xa1 ← x1[a]?
  some (x1.set a (xa1 + t))

/-- The loop `for (int k = 0; k < N; k += m)` of `FFT::fft` from the current
`k`; `none` when an access is out of range or the loop has not ended after
`fuel` iterations. -/
def kLoop (o : C) (j m m2 N : Nat) : Nat → Nat → List C → Option (List C)
  | 0, k, x => if k < N then none else some x
  | fuel + 1, k, x =>
    if k < N then
      (butterfly o (k + j) (k + j + m2) x).bind (kLoop o j m m2 N fuel (k + m))
    else some x

/-- The body of the loop `for (int j = 0; j < m2; j++)` of `FFT::fft` on the
pair `(x, w)`.  The `k` loop needs at most `N` iterations. -/
def jBody (Omega : List C) (m m2 r N : Nat) (st : List C × Nat) (j : Nat) :
    Option (List C × Nat) := do
  let o ← Omega[st.2]?
  let x ← kLoop o j m m2 N N 0 st.1
  some (x, st.2 + r)

/-- The state of the outer loop of `FFT::fft`. -/
structure Stage (C : Type) where
  x : List C
  m : Nat
  m2 : Nat
  r : Nat

/-- The body of the loop `for (int s = 0; s < logN; s++)` of `FFT::fft`. -/
def sBody (Omega : List C) (N : Nat) (st : Stage C) (_s : Nat) : Option (Stage C) := do
  let w := 0
  let r := st.r >>> 1
  let (x, _) ← (List.range st.m2).foldlM (jBody Omega st.m st.m2 r N) (st.x, w)
  some { x := x, m := st.m <<< 1, m2 := st.m, r := r }

/-- The function-local statics of `FFT::fft`. -/
structure Cache (C : Type) where
  Omega : List C
  N : Nat
  logN : Nat

/-- The statics before the first call: `N = 0`, `logN` zero-initialised, an
empty table. -/
def Cache.empty (C : Type) : Cache C := { Omega := [], N := 0, logN := 0 }

/-- `FFT::fft(x)`: the statics and the vector after the call, `none` when an
access is out of range. -/
def fft (cis : Nat → Nat → C) (c : Cache C) (x : List C) : Option (Cache C × List C) :=
  let c1 : Cache C :=
    if c.N ≠ x.length then
      { N := x.length, logN := log2 x.length, Omega := calcOmega cis c.Omega x.length }
    else c
  ((List.range c1.logN).foldlM (sBody c1.Omega c1.N) { x := x, m := 2, m2 := 1, r := c1.N }).map
    fun st => (c1, st.x)

/-- A sequence of calls of `FFT::fft`, the statics carried from call to call:
the statics and the vector after each call.  The sequence ends at a call
with an access out of range. -/
def fftSeq (cis : Nat → Nat → C) : Cache C → List (List C) → List (Option (Cache C × List C))
  | _, [] => []
  | c, x :: xs =>
    match fft cis c x with
    | none => [none]
    | some (c1, y) => some (c1, y) :: fftSeq cis c1 xs

/-- The statics are consistent: `logN = log2(N)` and the table holds
`cis s N` at every index `s < N`. -/
def Cache.Valid (cis : Nat → Nat → C) (c : Cache C) : Prop :=
  c.logN = log2 c.N ∧ c.Omega = (List.range c.N).map (fun s => cis s c.N)

/-- The value of element `b * 2^s + j` after `s` stages of the butterfly
loop, for a table of powers of `ω` and `2^(s+d)` elements: the transform of
size `2^s` of block `b` of the input, read in bit-reversed order. -/
def stageSum (ω : C) (x : List C) (s d b j : Nat) : C :=
  Finset.sum (Finset.range (2 ^ s))
    (fun n => x.getD (b * 2 ^ s + brev s n) 0 * ω ^ (2 ^ d * (j * n)))

/-- Over exact complex numbers `cis s N` is `std::polar(1, -2π·s/N)`, the
point `exp(i·(-2π·s/N))` of the unit circle. -/
def IsPolar (cis : Nat → Nat → ℂ) : Prop :=
  ∀ s N : Nat,
    cis s N = Complex.exp ((((-2 * Real.pi) * (s : ℝ) / (N : ℝ) : ℝ) : ℂ) * Complex.I)

end FFT

/-! ## The sample ring: lemmas -/

namespace FIFO

variable {T : Type}

theorem memcpy_length (dst : List T) (off : Nat) (src : Nat → T) (n : Nat) :
    (memcpy dst off src n).length = dst.length := by
  induction n with
  | zero => rfl
  | succ n ih => simp [memcpy, ih]

theorem memcpy_getElem? (dst : List T) (off : Nat) (src : Nat → T) (n i : Nat) :
    (memcpy dst off src n)[i]? =
      if off ≤ i ∧ i < off + n ∧ i < dst.length then some (src (i - off)) else dst[i]? := by
  induction n with
  | zero =>
    have : ¬ (off ≤ i ∧ i < off ∧ i < dst.length) := by omega
    simp [memcpy, this]
  | succ n ih =>
    simp only [memcpy, List.getElem?_set, memcpy_length, ih]
    by_cases h1 : off + n = i
    · subst h1
      by_cases h2 : off + n < dst.length
      · simp [h2]
      · have : dst[off + n]? = none := List.getElem?_eq_none (by omega)
        simp [h2, this]
    · simp only [h1, if_false]
      by_cases h3 : off ≤ i ∧ i < off + n ∧ i < dst.length
      · have : off ≤ i ∧ i < off + (n + 1) ∧ i < dst.length := by omega
        simp [h3, this]
      · have : ¬ (off ≤ i ∧ i < off + (n + 1) ∧ i < dst.length) := by omega
        simp [h3, this]

theorem mod_wrap (a S : Nat) (h1 : S ≤ a) (h2 : a < 2 * S) : a % S = a - S := by
  rw [Nat.mod_eq_sub_mod h1, Nat.mod_eq_of_lt (by omega)]

theorem copy_length (f : FIFO T) (data : Nat → T) (sz : Int) :
    (copy f data sz).length = f._data.length := by
  unfold copy
  simp only
  split <;> simp [memcpy_length]

/-- The copy stores `data k` at offset `(t + k) % S`. -/
theorem copy_written (f : FIFO T) (data : Nat → T) (S t n : Nat)
    (hS : f._data.length = S) (ht : f.tail = (t : Int)) (htS : t < S) (hn : n ≤ S)
    (k : Nat) (hk : k < n) :
    (copy f data (n : Int))[(t + k) % S]? = some (data k) := by
  unfold copy
  simp only [hS, ht]
  by_cases hw : (t : Int) + (n : Int) - (S : Int) ≤ 0
  · have h1 : t + n ≤ S := by omega
    rw [if_pos hw, memcpy_getElem?, Nat.mod_eq_of_lt (by omega)]
    simp only [Int.toNat_ofNat, hS]
    rw [if_pos (by omega)]
    congr 2; omega
  · have h1 : S < t + n := by omega
    have e1 : ((n : Int) - ((t : Int) + (n : Int) - (S : Int))).toNat = S - t := by omega
    have e2 : ((t : Int) + (n : Int) - (S : Int)).toNat = t + n - S := by omega
    rw [if_neg hw, e1, e2, memcpy_getElem?, memcpy_length, memcpy_getElem?]
    simp only [Int.toNat_ofNat, hS]
    by_cases h2 : t + k < S
    · rw [Nat.mod_eq_of_lt h2, if_neg (by omega), if_pos (by omega)]
      congr 2; omega
    · rw [mod_wrap _ _ (by omega) (by omega), if_pos (by omega)]
      congr 2; omega

/-- Offsets that are no `(t + k) % S` with `k < n` keep their content. -/
theorem copy_frame (f : FIFO T) (data : Nat → T) (S t n : Nat)
    (hS : f._data.length = S) (ht : f.tail = (t : Int)) (htS : t < S)
    (i : Nat) (hi : ∀ k, k < n → (t + k) % S ≠ i) :
    (copy f data (n : Int))[i]? = f._data[i]? := by
  unfold copy
  simp only [hS, ht]
  by_cases hw : (t : Int) + (n : Int) - (S : Int) ≤ 0
  · have h1 : t + n ≤ S := by omega
    rw [if_pos hw, memcpy_getElem?]
    simp only [Int.toNat_ofNat, hS]
    rw [if_neg]
    rintro ⟨a, b, c⟩
    apply hi (i - t) (by omega)
    rw [Nat.mod_eq_of_lt (by omega)]; omega
  · have h1 : S < t + n := by omega
    have e1 : ((n : Int) - ((t : Int) + (n : Int) - (S : Int))).toNat = S - t := by omega
    have e2 : ((t : Int) + (n : Int) - (S : Int)).toNat = t + n - S := by omega
    rw [if_neg hw, e1, e2, memcpy_getElem?, memcpy_length, memcpy_getElem?]
    simp only [Int.toNat_ofNat, hS]
    rw [if_neg, if_neg]
    · rintro ⟨a, b, c⟩
      apply hi (i - t) (by omega)
      rw [Nat.mod_eq_of_lt (by omega)]; omega
    · rintro ⟨a, b, c⟩
      apply hi (i + S - t) (by omega)
      rw [mod_wrap _ _ (by omega) (by omega)]; omega


theorem resize_length [Inhabited T] (v : List T) (n : Nat) : (resize v n).length = n := by
  simp [resize]; omega

theorem Sim_Init [Inhabited T] (g : FIFO T) (bs fs : Int) (hbs : 0 < bs) (hfs : 0 < fs) :
    Sim (Init g bs fs) bs.toNat fs.toNat 0 [] := by
  obtain ⟨B, rfl⟩ := Int.eq_ofNat_of_zero_le hbs.le
  obtain ⟨NB, rfl⟩ := Int.eq_ofNat_of_zero_le hfs.le
  have e : ((NB : Int) * (B : Int)).toNat = NB * B := by
    rw [← Nat.cast_mul, Int.toNat_natCast]
  simp only [Int.toNat_natCast]
  constructor
  · omega
  · omega
  · rfl
  · rfl
  · show (resize _ _).length = _; rw [resize_length, e]
  · simp [Init]
  · simp [Init]
  · right; simp [Init]
  · simp
  · simp
  · intro x _ hx; simp at hx

theorem div_add_mod_div (W n B : Nat) (hB : 0 < B) : (W % B + n) / B + W / B = (W + n) / B := by
  have h : W + n = W % B + n + B * (W / B) := by
    have := Nat.mod_add_div W B; omega
  rw [h, Nat.add_mul_div_left _ _ hB]

theorem le_div_of_mul_le (P W B : Nat) (hB : 0 < B) (h : P * B ≤ W) : P ≤ W / B :=
  (Nat.le_div_iff_mul_le hB).2 h

theorem Push_eval {f : FIFO T} {B NB P : Nat} {s : List T} (h : Sim f B NB P s)
    (hc : 0 ≤ f.count) (data : Nat → T) (m : Nat) :
    Push f data ((m + 1 : Nat) : Int) =
      if s.length + (m + 1) ≤ P * B + NB * B then
        (true, { f with
          _data := copy f data ((m + 1 : Nat) : Int)
          count := (((s.length + (m + 1)) / B : Nat) : Int) - (P : Int)
          tail := (((s.length + (m + 1)) % (NB * B) : Nat) : Int) })
      else (false, f) := by
  have hcnt : f.count = ((s.length / B : Nat) : Int) - (P : Int) := by
    rcases h.count with h1 | h1
    · omega
    · exact h1
  have hPW := le_div_of_mul_le P s.length B h.hB h.lo
  have hmod : s.length % (NB * B) % B = s.length % B :=
    Nat.mod_mod_of_dvd _ (Dvd.intro_left NB rfl)
  have e1 := div_add_mod_div s.length (m + 1) B h.hB
  have e2 := div_add_mod_div s.length m B h.hB
  unfold Push
  rw [if_neg (by omega), if_neg (by omega)]
  simp only [h.tail, h.bs, h.nb, h.size]
  have t0 : ((s.length % (NB * B) : Nat) : Int).tmod (B : Int) = ((s.length % B : Nat) : Int) := by
    rw [← Int.ofNat_tmod, hmod]
  have br : (((s.length % B : Nat) : Int) + ((m + 1 : Nat) : Int)).tdiv (B : Int)
      = (((s.length % B + (m + 1)) / B : Nat) : Int) := by
    rw [← Nat.cast_add, ← Int.ofNat_tdiv]
  have bn : (((s.length % B : Nat) : Int) + ((m + 1 : Nat) : Int) - 1).tdiv (B : Int)
      = (((s.length % B + m) / B : Nat) : Int) := by
    have : ((s.length % B : Nat) : Int) + ((m + 1 : Nat) : Int) - 1 = ((s.length % B + m : Nat) : Int) := by
      push_cast; ring
    rw [this, ← Int.ofNat_tdiv]
  have tl : (((s.length % (NB * B) : Nat) : Int) + ((m + 1 : Nat) : Int)).tmod ((NB * B : Nat) : Int)
      = (((s.length + (m + 1)) % (NB * B) : Nat) : Int) := by
    rw [← Nat.cast_add, ← Int.ofNat_tmod, Nat.mod_add_mod]
  rw [t0, br, bn, tl]
  have key : (s.length + (m + 1) ≤ P * B + NB * B) ↔ (s.length + m) / B < P + NB := by
    rw [Nat.div_lt_iff_lt_mul h.hB, Nat.add_mul]; omega
  simp only [Int.toNat_ofNat]
  generalize (s.length % B + (m + 1)) / B = q1 at *
  generalize (s.length % B + m) / B = q2 at *
  generalize (s.length + (m + 1)) / B = q3 at *
  generalize (s.length + m) / B = q4 at *
  generalize s.length / B = q5 at *
  by_cases hacc : s.length + (m + 1) ≤ P * B + NB * B
  · have := key.1 hacc
    rw [if_pos hacc, if_neg (by omega)]
    have e3 : f.count + (q1 : Int) = (q3 : Int) - (P : Int) := by omega
    rw [e3]
  · have : ¬ q4 < P + NB := fun hh => hacc (key.2 hh)
    rw [if_neg hacc, if_pos (by omega)]


theorem mod_ne_of_lt (x y S : Nat) (h1 : x < y) (h2 : y < x + S) : y % S ≠ x % S := by
  intro h
  have h3 : (y - x) % S = 0 := Nat.sub_mod_eq_zero_of_mod_eq h
  rw [Nat.mod_eq_of_lt (by omega)] at h3
  omega

theorem bytes_length (data : Nat → T) (n : Nat) : (bytes data (n : Int)).length = n := by
  simp [bytes]

theorem bytes_getElem? (data : Nat → T) (n k : Nat) (hk : k < n) :
    (bytes data (n : Int))[k]? = some (data k) := by
  simp [bytes, List.getElem?_map, List.getElem?_range hk]

theorem Sim_Push_accept {f : FIFO T} {B NB P : Nat} {s : List T} (h : Sim f B NB P s)
    (data : Nat → T) (m : Nat) (hacc : s.length + (m + 1) ≤ P * B + NB * B) :
    Sim { f with
          _data := copy f data ((m + 1 : Nat) : Int)
          count := (((s.length + (m + 1)) / B : Nat) : Int) - (P : Int)
          tail := (((s.length + (m + 1)) % (NB * B) : Nat) : Int) }
      B NB P (s ++ bytes data ((m + 1 : Nat) : Int)) := by
  have hS : 0 < NB * B := Nat.mul_pos h.hNB h.hB
  have hlen : (s ++ bytes data ((m + 1 : Nat) : Int)).length = s.length + (m + 1) := by
    rw [List.length_append, bytes_length]
  have htl : s.length % (NB * B) < NB * B := Nat.mod_lt _ hS
  constructor
  · exact h.hB
  · exact h.hNB
  · exact h.bs
  · exact h.nb
  · show (copy f data _).length = _
    rw [copy_length, h.size]
  · exact h.head
  · show _ = _
    rw [hlen]
  · right
    show _ = _
    rw [hlen]
  · rw [hlen]; have := h.lo; omega
  · rw [hlen]; exact hacc
  · intro x hx1 hx2
    rw [hlen] at hx2
    show (copy f data _)[x % (NB * B)]? = _
    by_cases hx : x < s.length
    · rw [List.getElem?_append_left hx, ← h.content x hx1 hx]
      apply copy_frame f data (NB * B) (s.length % (NB * B)) (m + 1) h.size h.tail htl
      intro k hk
      rw [Nat.mod_add_mod]
      exact mod_ne_of_lt x (s.length + k) (NB * B) (by omega) (by omega)
    · have hk : x - s.length < m + 1 := by omega
      rw [List.getElem?_append_right (by omega), bytes_getElem? _ _ _ hk]
      have e : x % (NB * B) = (s.length % (NB * B) + (x - s.length)) % (NB * B) := by
        rw [Nat.mod_add_mod]; congr 1; omega
      rw [e]
      exact copy_written f data (NB * B) (s.length % (NB * B)) (m + 1) h.size h.tail htl
        (by have := h.lo; omega) _ hk

theorem Sim_Pop {f : FIFO T} {B NB P : Nat} {s : List T} (h : Sim f B NB P s)
    (hc : 0 < f.count) : Sim (Pop f) B NB (P + 1) s := by
  have hcnt : f.count = ((s.length / B : Nat) : Int) - (P : Int) := by
    rcases h.count with h1 | h1
    · omega
    · exact h1
  have hP : (P + 1) * B ≤ s.length := by
    have : P + 1 ≤ s.length / B := by omega
    exact (Nat.le_div_iff_mul_le h.hB).1 this
  have e : (P + 1) * B = P * B + B := by ring
  unfold Pop
  rw [if_pos hc]
  constructor
  · exact h.hB
  · exact h.hNB
  · exact h.bs
  · exact h.nb
  · exact h.size
  · show (f.head + f.BLOCK_SIZE).tmod _ = _
    rw [h.head, h.bs, h.size, ← Nat.cast_add, ← Int.ofNat_tmod, Nat.mod_add_mod, e]
  · exact h.tail
  · right
    show f.count - 1 = _
    rw [hcnt]; push_cast; ring
  · exact hP
  · have := h.hi; omega
  · intro x hx1 hx2
    exact h.content x (by omega) hx2

theorem Pop_of_not_pos (f : FIFO T) (hc : ¬ 0 < f.count) : Pop f = f := by
  unfold Pop
  rw [if_neg hc]

theorem Sim_Halt {f : FIFO T} {B NB P : Nat} {s : List T} (h : Sim f B NB P s) :
    Sim (Halt f) B NB P s :=
  { h with count := Or.inl rfl }


theorem Push_halted (f : FIFO T) (data : Nat → T) (sz : Int) (hc : f.count = -1) :
    Push f data sz = (false, f) := by
  unfold Push
  rw [if_pos hc]

theorem Push_nonpos (f : FIFO T) (data : Nat → T) (sz : Int) (hc : f.count ≠ -1)
    (hsz : sz ≤ 0) : Push f data sz = (true, f) := by
  unfold Push
  rw [if_neg hc, if_pos hsz]

theorem Sim.count_nonneg {f : FIFO T} {B NB P : Nat} {s : List T} (h : Sim f B NB P s)
    (hc : f.count ≠ -1) : 0 ≤ f.count := by
  have hPW := le_div_of_mul_le P s.length B h.hB h.lo
  rcases h.count with h1 | h1
  · exact absurd h1 hc
  · omega

theorem Sim_Push {f : FIFO T} {B NB P : Nat} {s : List T} (h : Sim f B NB P s)
    (data : Nat → T) (sz : Int) :
    Sim (Push f data sz).2 B NB P
      (s ++ if (Push f data sz).1 = true then bytes data sz else []) := by
  by_cases hc : f.count = -1
  · rw [Push_halted f data sz hc]
    simpa using h
  · by_cases hsz : sz ≤ 0
    · rw [Push_nonpos f data sz hc hsz]
      have : bytes data sz = [] := by
        have : sz.toNat = 0 := by omega
        simp [bytes, this]
      simpa [this] using h
    · obtain ⟨m, rfl⟩ : ∃ m : Nat, sz = ((m + 1 : Nat) : Int) := ⟨(sz - 1).toNat, by omega⟩
      rw [Push_eval h (h.count_nonneg hc) data m]
      by_cases hacc : s.length + (m + 1) ≤ P * B + NB * B
      · rw [if_pos hacc]
        simpa using Sim_Push_accept h data m hacc
      · rw [if_neg hacc]
        simpa using h

theorem Push_count_nonneg (f : FIFO T) (data : Nat → T) (sz : Int) (hc : 0 ≤ f.count) :
    0 ≤ (Push f data sz).2.count := by
  unfold Push
  split
  · exact hc
  · split
    · exact hc
    · simp only
      split
      · exact hc
      · show 0 ≤ f.count + _
        omega

theorem Pop_count_nonneg (f : FIFO T) (hc : 0 ≤ f.count) : 0 ≤ (Pop f).count := by
  unfold Pop
  split
  · show 0 ≤ f.count - 1
    omega
  · exact hc

theorem head_add_lt (P NB B i : Nat) (hNB : 0 < NB) (hi : i < B) :
    P * B % (NB * B) + i < NB * B := by
  rw [Nat.mul_mod_mul_right]
  have h1 : P % NB + 1 ≤ NB := Nat.mod_lt _ hNB
  have h2 : (P % NB + 1) * B ≤ NB * B := Nat.mul_le_mul_right B h1
  rw [Nat.add_mul] at h2
  omega

theorem FrontBlock_eq {f : FIFO T} {B NB P : Nat} {s : List T} (h : Sim f B NB P s)
    (hc : 0 < f.count) : FrontBlock f = (s.drop (P * B)).take B := by
  have hcnt : f.count = ((s.length / B : Nat) : Int) - (P : Int) := by
    rcases h.count with h1 | h1
    · omega
    · exact h1
  have hP : (P + 1) * B ≤ s.length := by
    have : P + 1 ≤ s.length / B := by omega
    exact (Nat.le_div_iff_mul_le h.hB).1 this
  rw [Nat.add_mul] at hP
  unfold FrontBlock Front
  rw [h.head, h.bs]
  simp only [Int.toNat_ofNat]
  apply List.ext_getElem?
  intro i
  rw [List.getElem?_take, List.getElem?_take]
  by_cases hi : i < B
  · rw [if_pos hi, if_pos hi, List.getElem?_drop, List.getElem?_drop,
      ← h.content (P * B + i) (by omega) (by omega)]
    congr 1
    rw [← Nat.mod_add_mod, Nat.mod_eq_of_lt (head_add_lt P NB B i h.hNB hi)]
  · rw [if_neg hi, if_neg hi]


theorem Sim_step {B NB : Nat} (op : Op T) (f : FIFO T) (P : Nat) (s : List T)
    (h : Sim f B NB P s) :
    Sim (step f op) B NB (P + pops f [op]) (s ++ pushed f [op]) := by
  cases op with
  | Push data sz => simpa [step, pops, pushed] using Sim_Push h data sz
  | Pop =>
    by_cases hc : 0 < f.count
    · simpa [step, pops, pushed, hc] using Sim_Pop h hc
    · simpa [step, pops, pushed, hc, Pop_of_not_pos f hc] using h
  | Wait => simpa [step, pops, pushed] using h
  | Full => simpa [step, pops, pushed] using h
  | Front => simpa [step, pops, pushed] using h
  | Halt => simpa [step, pops, pushed] using Sim_Halt h

theorem pops_cons (f : FIFO T) (op : Op T) (ops : List (Op T)) :
    pops f (op :: ops) = pops f [op] + pops (step f op) ops := by
  cases op <;> simp [pops, step]

theorem pushed_cons (f : FIFO T) (op : Op T) (ops : List (Op T)) :
    pushed f (op :: ops) = pushed f [op] ++ pushed (step f op) ops := by
  cases op <;> simp [pushed, step]

theorem popped_cons (f : FIFO T) (op : Op T) (ops : List (Op T)) :
    popped f (op :: ops) = popped f [op] ++ popped (step f op) ops := by
  cases op <;> simp [popped, step]

theorem run_cons (f : FIFO T) (op : Op T) (ops : List (Op T)) :
    run f (op :: ops) = run (step f op) ops := rfl

theorem Sim_run {B NB : Nat} (ops : List (Op T)) : ∀ (f : FIFO T) (P : Nat) (s : List T),
    Sim f B NB P s → Sim (run f ops) B NB (P + pops f ops) (s ++ pushed f ops) := by
  induction ops with
  | nil => intro f P s h; simpa [run, pops, pushed] using h
  | cons op ops ih =>
    intro f P s h
    have h1 := ih _ _ _ (Sim_step op f P s h)
    rw [run_cons, pops_cons, pushed_cons, ← Nat.add_assoc, ← List.append_assoc]
    exact h1

theorem popped_single {B NB : Nat} (op : Op T) (f : FIFO T) (P : Nat) (s : List T)
    (h : Sim f B NB P s) :
    popped f [op] = (s.drop (P * B)).take (pops f [op] * B) ∧
      (P + pops f [op]) * B ≤ s.length := by
  have hlo := h.lo
  cases op with
  | Pop =>
    by_cases hc : 0 < f.count
    · have h2 := (Sim_Pop h hc).lo
      simp [popped, pops, hc, FrontBlock_eq h hc, h2]
    · simp [popped, pops, hc, hlo]
  | Push data sz => simp [popped, pops, hlo]
  | Wait => simp [popped, pops, hlo]
  | Full => simp [popped, pops, hlo]
  | Front => simp [popped, pops, hlo]
  | Halt => simp [popped, pops, hlo]

theorem popped_eq {B NB : Nat} (ops : List (Op T)) : ∀ (f : FIFO T) (P : Nat) (s : List T),
    Sim f B NB P s →
      popped f ops = ((s ++ pushed f ops).drop (P * B)).take (pops f ops * B) := by
  induction ops with
  | nil => intro f P s h; simp [popped, pops]
  | cons op ops ih =>
    intro f P s h
    obtain ⟨h1, h2⟩ := popped_single op f P s h
    have h3 := ih _ _ _ (Sim_step op f P s h)
    have e1 : (pops f [op] + pops (step f op) ops) * B
        = pops f [op] * B + pops (step f op) ops * B := Nat.add_mul _ _ _
    have e2 : (P + pops f [op]) * B = P * B + pops f [op] * B := Nat.add_mul _ _ _
    rw [popped_cons, pops_cons, pushed_cons, h1, h3, e1, e2, List.take_add,
      List.drop_drop, ← List.append_assoc]
    congr 1
    have h4 : P * B + pops f [op] * B ≤ s.length := by rw [← e2]; exact h2
    rw [List.append_assoc, List.drop_append_of_le_length (by omega),
      List.take_append_of_le_length]
    rw [List.length_drop]; omega

theorem run_count_nonneg (ops : List (Op T)) : ∀ (f : FIFO T), noHalt ops = true →
    0 ≤ f.count → 0 ≤ (run f ops).count := by
  induction ops with
  | nil => intro f _ h; exact h
  | cons op ops ih =>
    intro f hH hc
    rw [run_cons]
    cases op with
    | Push data sz => exact ih _ (by simpa [noHalt] using hH) (Push_count_nonneg f data sz hc)
    | Pop => exact ih _ (by simpa [noHalt] using hH) (Pop_count_nonneg f hc)
    | Wait => exact ih _ (by simpa [noHalt] using hH) hc
    | Full => exact ih _ (by simpa [noHalt] using hH) hc
    | Front => exact ih _ (by simpa [noHalt] using hH) hc
    | Halt => simp [noHalt] at hH

theorem Sim_reach [Inhabited T] (g : FIFO T) (B NB : Nat) (hB : 0 < B) (hNB : 0 < NB)
    (ops : List (Op T)) :
    Sim (run (Init g (B : Int) (NB : Int)) ops) B NB
      (pops (Init g (B : Int) (NB : Int)) ops) (pushed (Init g (B : Int) (NB : Int)) ops) := by
  have h0 := Sim_Init g (B : Int) (NB : Int) (by omega) (by omega)
  simp only [Int.toNat_natCast] at h0
  simpa using Sim_run ops _ _ _ h0

theorem block_start_mod (W B NB : Nat) :
    (W / B * B) % (NB * B) + W % B = W % (NB * B) := by
  rw [Nat.mul_mod_mul_right, Nat.mul_comm NB B, Nat.mod_mul]
  rw [Nat.mul_comm B]; omega

theorem Sim.inv {f : FIFO T} {B NB P : Nat} {s : List T} (h : Sim f B NB P s) :
    0 ≤ f.head ∧ f.head < (B : Int) * (NB : Int) ∧ 0 ≤ f.tail ∧ f.tail < (B : Int) * (NB : Int) ∧
    f.head % (B : Int) = 0 ∧
    (f.count = -1 ∨ (0 ≤ f.count ∧ f.count ≤ (NB : Int) ∧
      (f.head + f.count * (B : Int)) % ((B : Int) * (NB : Int)) = f.tail - f.tail % (B : Int))) := by
  have hS : 0 < NB * B := Nat.mul_pos h.hNB h.hB
  have hh : P * B % (NB * B) < NB * B := Nat.mod_lt _ hS
  have ht : s.length % (NB * B) < NB * B := Nat.mod_lt _ hS
  have eS : (B : Int) * (NB : Int) = ((NB * B : Nat) : Int) := by push_cast; ring
  rw [eS, h.head, h.tail]
  refine ⟨by omega, by exact_mod_cast hh, by omega, by exact_mod_cast ht, ?_, ?_⟩
  · rw [Nat.mul_mod_mul_right]; push_cast; exact Int.mul_emod_left _ _
  · rcases h.count with h1 | h1
    · exact Or.inl h1
    · right
      have hPW := le_div_of_mul_le P s.length B h.hB h.lo
      have hWB : s.length / B ≤ P + NB := by
        have := h.hi
        rw [← Nat.add_mul] at this
        calc s.length / B ≤ (P + NB) * B / B := Nat.div_le_div_right this
          _ = P + NB := Nat.mul_div_cancel _ h.hB
      obtain ⟨c, hc⟩ : ∃ c : Nat, s.length / B = P + c := ⟨s.length / B - P, by omega⟩
      have hcnt : f.count = (c : Int) := by rw [h1, hc]; push_cast; ring
      refine ⟨by omega, by omega, ?_⟩
      have e1 : (P * B % (NB * B) + c * B) % (NB * B) = (s.length / B * B) % (NB * B) := by
        rw [Nat.mod_add_mod, hc, Nat.add_mul]
      have e2 := block_start_mod s.length B NB
      have e3 : s.length % (NB * B) % B = s.length % B :=
        Nat.mod_mod_of_dvd _ (Dvd.intro_left NB rfl)
      rw [hcnt, ← Nat.cast_mul, ← Nat.cast_add, ← Int.natCast_mod, ← Int.natCast_mod, e1, e3]
      omega

theorem run_Halt (ops : List (Op T)) : ∀ (f : FIFO T), f.count = -1 → run f ops = f := by
  induction ops with
  | nil => intro f _; rfl
  | cons op ops ih =>
    intro f hc
    rw [run_cons]
    have : step f op = f := by
      cases op with
      | Push data sz => simp [step, Push_halted f data sz hc]
      | Pop => simp [step, Pop_of_not_pos f (by omega)]
      | Wait => rfl
      | Full => rfl
      | Front => rfl
      | Halt =>
        cases f
        simp only [step, Halt] at hc ⊢
        rw [hc]
    rw [this]
    exact ih f hc

theorem rounds_run {B NB : Nat} {s : List T} (n : Nat) : ∀ (f : FIFO T) (P k : Nat),
    Sim f B NB P s → f.count = (k : Int) → n ≤ k →
      Sim (run f (rounds n)) B NB (P + n) s ∧ (run f (rounds n)).count = (k : Int) - (n : Int) := by
  induction n with
  | zero => intro f P k h hk _; exact ⟨by simpa [rounds, run] using h, by simpa [rounds, run] using hk⟩
  | succ n ih =>
    intro f P k h hk hn
    have hpos : 0 < f.count := by omega
    have h1 := Sim_Pop h hpos
    have hk1 : (Pop f).count = ((k - 1 : Nat) : Int) := by
      unfold Pop; rw [if_pos hpos]; show f.count - 1 = _; omega
    obtain ⟨h2, h3⟩ := ih (Pop f) (P + 1) (k - 1) h1 hk1 (by omega)
    have e : run f (rounds (n + 1)) = run (Pop f) (rounds n) := rfl
    rw [e]
    refine ⟨?_, ?_⟩
    · have : P + (n + 1) = P + 1 + n := by omega
      rw [this]; exact h2
    · rw [h3]; omega

end FIFO

namespace FIFO

variable {T : Type}

/-- The copy depends on `data[0..n)` only. -/
theorem copy_ext (f : FIFO T) (d1 d2 : Nat → T) (S t n : Nat)
    (hS : f._data.length = S) (ht : f.tail = (t : Int)) (htS : t < S) (hn : n ≤ S)
    (hd : ∀ k, k < n → d1 k = d2 k) :
    copy f d1 (n : Int) = copy f d2 (n : Int) := by
  apply List.ext_getElem?
  intro i
  by_cases hi : ∃ k, k < n ∧ (t + k) % S = i
  · obtain ⟨k, hk, rfl⟩ := hi
    rw [copy_written f d1 S t n hS ht htS hn k hk, copy_written f d2 S t n hS ht htS hn k hk,
      hd k hk]
  · have hi' : ∀ k, k < n → (t + k) % S ≠ i := fun k hk he => hi ⟨k, hk, he⟩
    rw [copy_frame f d1 S t n hS ht htS i hi', copy_frame f d2 S t n hS ht htS i hi']

/-- In a state of the simulation `Push(data, n)` depends on `data[0..n)`
only. -/
theorem Push_ext {f : FIFO T} {B NB P : Nat} {s : List T} (h : Sim f B NB P s)
    (hc : 0 ≤ f.count) (d1 d2 : Nat → T) (n : Nat) (hd : ∀ k, k < n → d1 k = d2 k) :
    Push f d1 (n : Int) = Push f d2 (n : Int) := by
  cases n with
  | zero =>
    rw [Push_nonpos f d1 _ (by omega) (by simp), Push_nonpos f d2 _ (by omega) (by simp)]
  | succ m =>
    have hS : 0 < NB * B := Nat.mul_pos h.hNB h.hB
    rw [Push_eval h hc d1 m, Push_eval h hc d2 m]
    by_cases hacc : s.length + (m + 1) ≤ P * B + NB * B
    · rw [if_pos hacc, if_pos hacc,
        copy_ext f d1 d2 (NB * B) (s.length % (NB * B)) (m + 1) h.size h.tail
          (Nat.mod_lt _ hS) (by have := h.lo; omega) hd]
    · rw [if_neg hacc, if_neg hacc]

theorem Push_split_core {f : FIFO T} {B NB P : Nat} {s : List T} (h : Sim f B NB P s)
    (hc : 0 ≤ f.count) (dab da db : Nat → T) (n1 n2 : Nat)
    (ha : ∀ k, k < n1 → da k = dab k) (hb : ∀ k, k < n2 → db k = dab (n1 + k))
    (hacc : (Push f dab ((n1 + n2 : Nat) : Int)).1 = true) :
    (Push f da (n1 : Int)).1 = true ∧
    (Push (Push f da (n1 : Int)).2 db (n2 : Int)).1 = true ∧
    (Push (Push f da (n1 : Int)).2 db (n2 : Int)).2 = (Push f dab ((n1 + n2 : Nat) : Int)).2 := by
  have hne : f.count ≠ -1 := by omega
  cases n1 with
  | zero =>
    have e0 : Push f da ((0 : Nat) : Int) = (true, f) := Push_nonpos f da _ hne (by simp)
    have e1 : Push f db (n2 : Int) = Push f dab (n2 : Int) :=
      Push_ext h hc db dab n2 (fun k hk => by simpa using hb k hk)
    rw [Nat.zero_add] at hacc ⊢
    rw [e0, e1]
    exact ⟨rfl, hacc, rfl⟩
  | succ m1 =>
    cases n2 with
    | zero =>
      have e1 : Push f da ((m1 + 1 : Nat) : Int) = Push f dab ((m1 + 1 : Nat) : Int) :=
        Push_ext h hc da dab (m1 + 1) ha
      rw [Nat.add_zero] at hacc ⊢
      rw [e1]
      have hc1 := Push_count_nonneg f dab ((m1 + 1 : Nat) : Int) hc
      have e0 : Push (Push f dab ((m1 + 1 : Nat) : Int)).2 db ((0 : Nat) : Int)
          = (true, (Push f dab ((m1 + 1 : Nat) : Int)).2) :=
        Push_nonpos _ db _ (by omega) (by simp)
      rw [e0]
      exact ⟨hacc, rfl, rfl⟩
    | succ m2 =>
      have hS : 0 < NB * B := Nat.mul_pos h.hNB h.hB
      have en : m1 + 1 + (m2 + 1) = (m1 + 1 + m2) + 1 := by omega
      have hcap : s.length + (m1 + 1 + m2 + 1) ≤ P * B + NB * B := by
        by_contra hcon
        rw [en, Push_eval h hc dab (m1 + 1 + m2), if_neg hcon] at hacc
        simp at hacc
      have hcap1 : s.length + (m1 + 1) ≤ P * B + NB * B := by omega
      have h1 := Sim_Push_accept h da m1 hcap1
      have hlen1 : (s ++ bytes da ((m1 + 1 : Nat) : Int)).length = s.length + (m1 + 1) := by
        rw [List.length_append, bytes_length]
      have hcap2 : (s ++ bytes da ((m1 + 1 : Nat) : Int)).length + (m2 + 1)
          ≤ P * B + NB * B := by rw [hlen1]; omega
      rw [en, Push_eval h hc dab (m1 + 1 + m2), if_pos hcap, Push_eval h hc da m1, if_pos hcap1]
      have hc1 : 0 ≤ (({ f with
            _data := copy f da ((m1 + 1 : Nat) : Int)
            count := (((s.length + (m1 + 1)) / B : Nat) : Int) - (P : Int)
            tail := (((s.length + (m1 + 1)) % (NB * B) : Nat) : Int) } : FIFO T)).count := by
        have := le_div_of_mul_le P (s.length + (m1 + 1)) B h.hB (by have := h.lo; omega)
        show 0 ≤ (((s.length + (m1 + 1)) / B : Nat) : Int) - (P : Int)
        omega
      dsimp only
      rw [Push_eval h1 hc1 db m2, if_pos hcap2]
      refine ⟨rfl, rfl, ?_⟩
      dsimp only
      have elen : (s ++ bytes da ((m1 + 1 : Nat) : Int)).length + (m2 + 1)
          = s.length + (m1 + 1 + m2 + 1) := by rw [hlen1]; omega
      rw [elen]
      congr 1
      -- the two stores agree at every offset
      have htl : s.length % (NB * B) < NB * B := Nat.mod_lt _ hS
      have htl1 : (s.length + (m1 + 1)) % (NB * B) < NB * B := Nat.mod_lt _ hS
      have hm : ∀ k, ((s.length + (m1 + 1)) % (NB * B) + k) % (NB * B)
          = (s.length % (NB * B) + (m1 + 1 + k)) % (NB * B) := by
        intro k
        rw [Nat.mod_add_mod, Nat.mod_add_mod, Nat.add_assoc]
      have hlo := h.lo
      apply List.ext_getElem?
      intro i
      by_cases hA : ∃ k, k < m2 + 1 ∧ ((s.length + (m1 + 1)) % (NB * B) + k) % (NB * B) = i
      · obtain ⟨k, hk, rfl⟩ := hA
        rw [copy_written _ db (NB * B) _ (m2 + 1) h1.size rfl htl1 (by omega) k hk, hm k,
          copy_written f dab (NB * B) _ (m1 + 1 + m2 + 1) h.size h.tail htl (by omega)
            (m1 + 1 + k) (by omega),
          hb k hk]
      · have hA' : ∀ k, k < m2 + 1 →
            ((s.length + (m1 + 1)) % (NB * B) + k) % (NB * B) ≠ i :=
          fun k hk he => hA ⟨k, hk, he⟩
        rw [copy_frame _ db (NB * B) _ (m2 + 1) h1.size rfl htl1 i hA']
        show (copy f da ((m1 + 1 : Nat) : Int))[i]? = _
        by_cases hB : ∃ k, k < m1 + 1 ∧ (s.length % (NB * B) + k) % (NB * B) = i
        · obtain ⟨k, hk, rfl⟩ := hB
          rw [copy_written f da (NB * B) _ (m1 + 1) h.size h.tail htl (by omega) k hk,
            copy_written f dab (NB * B) _ (m1 + 1 + m2 + 1) h.size h.tail htl (by omega)
              k (by omega),
            ha k hk]
        · have hB' : ∀ k, k < m1 + 1 → (s.length % (NB * B) + k) % (NB * B) ≠ i :=
            fun k hk he => hB ⟨k, hk, he⟩
          rw [copy_frame f da (NB * B) _ (m1 + 1) h.size h.tail htl i hB',
            copy_frame f dab (NB * B) _ (m1 + 1 + m2 + 1) h.size h.tail htl i]
          intro k hk
          by_cases hk1 : k < m1 + 1
          · exact hB' k hk1
          · have e : m1 + 1 + (k - (m1 + 1)) = k := by omega
            have := hA' (k - (m1 + 1)) (by omega)
            rw [hm, e] at this
            exact this

end FIFO

/-! ## The sample ring: properties of the specification -/

namespace FIFO

variable {T : Type}

/-- C2 (FIFO order).  After `Init(blockSize, blockCount)` with both positive,
in every sequential run of calls (runs without `Halt` in particular) the
blocks the consumer reads (the block at `Front()` before each `Pop` that
finds the counter positive), concatenated in pop order, are the first
`pops * blockSize` bytes of the concatenation of the data of the `Push` calls
that returned true.  Writes that wrap around the end of the store are
covered: the run is arbitrary. -/
theorem fifo_order [Inhabited T] (g : FIFO T) (blockSize blockCount : Int)
    (hbs : 0 < blockSize) (hbc : 0 < blockCount) (ops : List (Op T)) :
    popped (Init g blockSize blockCount) ops =
      (pushed (Init g blockSize blockCount) ops).take
        (pops (Init g blockSize blockCount) ops * blockSize.toNat) := by
  obtain ⟨B, rfl⟩ := Int.eq_ofNat_of_zero_le hbs.le
  obtain ⟨NB, rfl⟩ := Int.eq_ofNat_of_zero_le hbc.le
  have h0 := Sim_Init g (B : Int) (NB : Int) hbs hbc
  simp only [Int.toNat_natCast] at h0
  have := popped_eq ops _ _ _ h0
  simpa using this

/-- Witness of C2: a 2 × 2 ring, two pushes of three bytes (the second wraps around the end of the store) and two pops. -/
theorem fifo_order_witness :
    (0 : Int) < 2 ∧ (0 : Int) < 2 ∧
    popped (Init (fresh Nat) 2 2)
        [Op.Push (fun i => i) 3, Op.Pop, Op.Push (fun i => 10 + i) 3, Op.Pop] =
      (pushed (Init (fresh Nat) 2 2)
        [Op.Push (fun i => i) 3, Op.Pop, Op.Push (fun i => 10 + i) 3, Op.Pop]).take
        (pops (Init (fresh Nat) 2 2)
          [Op.Push (fun i => i) 3, Op.Pop, Op.Push (fun i => 10 + i) 3, Op.Pop]
          * (2 : Int).toNat) :=
  ⟨by decide, by decide, fifo_order (fresh Nat) 2 2 (by decide) (by decide) _⟩

/-- C3 (ring capacity).  After `Init` and a run without `Halt`, a `Push` of
length `sz > 0` returns true whenever the unconsumed bytes (bytes of the
earlier successful pushes minus `blockSize` times the effective pops) plus
`sz` is at most `blockSize * blockCount`. -/
theorem ring_capacity [Inhabited T] (g : FIFO T) (blockSize blockCount : Int)
    (hbs : 0 < blockSize) (hbc : 0 < blockCount) (ops : List (Op T))
    (hH : noHalt ops = true) (data : Nat → T) (sz : Int) (hsz : 0 < sz)
    (hcap : ((pushed (Init g blockSize blockCount) ops).length : Int)
        - blockSize * (pops (Init g blockSize blockCount) ops : Int) + sz
      ≤ blockSize * blockCount) :
    (Push (run (Init g blockSize blockCount) ops) data sz).1 = true := by
  obtain ⟨B, rfl⟩ := Int.eq_ofNat_of_zero_le hbs.le
  obtain ⟨NB, rfl⟩ := Int.eq_ofNat_of_zero_le hbc.le
  obtain ⟨m, rfl⟩ : ∃ m : Nat, sz = ((m + 1 : Nat) : Int) := ⟨(sz - 1).toNat, by omega⟩
  have h := Sim_reach g B NB (by omega) (by omega) ops
  have hc : 0 ≤ (run (Init g (B : Int) (NB : Int)) ops).count :=
    run_count_nonneg ops _ hH (by simp [Init])
  rw [Push_eval h hc data m, if_pos]
  have : (((pushed (Init g (B : Int) (NB : Int)) ops).length + (m + 1) : Nat) : Int)
      ≤ ((pops (Init g (B : Int) (NB : Int)) ops * B + NB * B : Nat) : Int) := by
    push_cast at hcap ⊢
    linarith
  exact_mod_cast this

/-- Witness of C3: a 2 × 2 ring holding one unconsumed byte accepts a push of three bytes. -/
theorem ring_capacity_witness :
    (0 : Int) < 2 ∧ (0 : Int) < 2 ∧
    noHalt [Op.Push (fun i : Nat => i) 3, Op.Pop] = true ∧ (0 : Int) < 3 ∧
    ((pushed (Init (fresh Nat) 2 2) [Op.Push (fun i => i) 3, Op.Pop]).length : Int)
        - 2 * (pops (Init (fresh Nat) 2 2) [Op.Push (fun i => i) 3, Op.Pop] : Int) + 3
      ≤ 2 * 2 ∧
    (Push (run (Init (fresh Nat) 2 2) [Op.Push (fun i => i) 3, Op.Pop])
      (fun i => 10 + i) 3).1 = true :=
  ⟨by decide, by decide, by decide, by decide, by decide,
    ring_capacity (fresh Nat) 2 2 (by decide) (by decide) [Op.Push (fun i => i) 3, Op.Pop]
      (by decide) (fun i => 10 + i) 3 (by decide) (by decide)⟩

/-- C4 (overflow rejection).  In a non-halted state, a `Push` of length
`sz > 0` with `count + blocksNeeded > blockCount`, where
`blocksNeeded = (tail mod blockSize + sz - 1) / blockSize + 1`, returns false
and leaves the whole state (head, tail, counter, backing store) unchanged. -/
theorem overflow_rejected (f : FIFO T) (data : Nat → T) (sz : Int)
    (hc : f.count ≠ -1) (hsz : 0 < sz)
    (hfull : f.count + ((f.tail.tmod f.BLOCK_SIZE + sz - 1).tdiv f.BLOCK_SIZE + 1)
      > f.N_BLOCKS) :
    Push f data sz = (false, f) := by
  unfold Push
  rw [if_neg hc, if_neg (by omega)]
  simp only
  rw [if_pos hfull]

/-- Witness of C4: a full 2 × 2 ring rejects a push of one byte and is unchanged. -/
theorem overflow_rejected_witness :
    (⟨[0, 1, 2, 3], 0, 0, 2, 2, 2⟩ : FIFO Nat).count ≠ -1 ∧ (0 : Int) < 1 ∧
    Push (⟨[0, 1, 2, 3], 0, 0, 2, 2, 2⟩ : FIFO Nat) (fun i => 10 + i) 1
      = (false, ⟨[0, 1, 2, 3], 0, 0, 2, 2, 2⟩) :=
  ⟨by decide, by decide,
    overflow_rejected ⟨[0, 1, 2, 3], 0, 0, 2, 2, 2⟩ (fun i => 10 + i) 1
      (by decide) (by decide) (by decide)⟩

/-- C5 (halt finality and idempotence).  From any state, after `Halt()` the
state before every call of any later run is still the state right after the
first `Halt()`; there `Push` returns false for any data and length and
changes nothing, `Wait` returns false without entering the timed wait, `Pop`
changes nothing and a second `Halt` gives the same state. -/
theorem halt_final (f : FIFO T) (ops : List (Op T)) :
    (∀ pre post, ops = pre ++ post → run (Halt f) pre = Halt f) ∧
    (∀ data sz, Push (Halt f) data sz = (false, Halt f)) ∧
    WaitBlocks (Halt f) = false ∧ Wait (Halt f) = false ∧
    Pop (Halt f) = Halt f ∧ Halt (Halt f) = Halt f ∧ (Halt f).count = -1 := by
  refine ⟨fun pre _ _ => run_Halt pre _ rfl, fun data sz => Push_halted _ data sz rfl,
    ?_, ?_, ?_, rfl, rfl⟩
  · simp [WaitBlocks, Halt]
  · simp [Wait, Halt]
  · exact Pop_of_not_pos _ (by simp [Halt])

/-- C6 (wraparound correctness).  In a state reached from `Init`, after a
`Push(data, sz)` with `sz > 0` that returns true the store holds `data[i]` at
offset `(tail + i) mod (blockSize * blockCount)` for every `i < sz`, every
other offset is unchanged, and the tail is
`(tail + sz) mod (blockSize * blockCount)`. -/
theorem wraparound [Inhabited T] (g : FIFO T) (blockSize blockCount : Int)
    (hbs : 0 < blockSize) (hbc : 0 < blockCount) (ops : List (Op T))
    (data : Nat → T) (sz : Int) (hsz : 0 < sz)
    (hacc : (Push (run (Init g blockSize blockCount) ops) data sz).1 = true) :
    (∀ i : Nat, (i : Int) < sz →
      (Push (run (Init g blockSize blockCount) ops) data sz).2._data[
        (((run (Init g blockSize blockCount) ops).tail + i) % (blockSize * blockCount)).toNat]?
        = some (data i)) ∧
    (∀ j : Nat,
      (∀ i : Nat, (i : Int) < sz →
        (((run (Init g blockSize blockCount) ops).tail + i) % (blockSize * blockCount)).toNat
          ≠ j) →
      (Push (run (Init g blockSize blockCount) ops) data sz).2._data[j]?
        = (run (Init g blockSize blockCount) ops)._data[j]?) ∧
    (Push (run (Init g blockSize blockCount) ops) data sz).2.tail
      = ((run (Init g blockSize blockCount) ops).tail + sz) % (blockSize * blockCount) := by
  obtain ⟨B, rfl⟩ := Int.eq_ofNat_of_zero_le hbs.le
  obtain ⟨NB, rfl⟩ := Int.eq_ofNat_of_zero_le hbc.le
  obtain ⟨m, rfl⟩ : ∃ m : Nat, sz = ((m + 1 : Nat) : Int) := ⟨(sz - 1).toNat, by omega⟩
  have h := Sim_reach g B NB (by omega) (by omega) ops
  generalize run (Init g (B : Int) (NB : Int)) ops = f at h hacc ⊢
  generalize pops (Init g (B : Int) (NB : Int)) ops = P at h
  generalize pushed (Init g (B : Int) (NB : Int)) ops = s at h
  have hc : f.count ≠ -1 := by
    intro hc
    rw [Push_halted f data _ hc] at hacc
    simp at hacc
  have hS : 0 < NB * B := Nat.mul_pos h.hNB h.hB
  have htl : s.length % (NB * B) < NB * B := Nat.mod_lt _ hS
  have eS : (B : Int) * (NB : Int) = ((NB * B : Nat) : Int) := by push_cast; ring
  have hidx : ∀ i : Nat, ((f.tail + (i : Int)) % ((B : Int) * (NB : Int))).toNat
      = (s.length % (NB * B) + i) % (NB * B) := by
    intro i
    rw [eS, h.tail, ← Nat.cast_add, ← Int.natCast_mod, Int.toNat_natCast]
  rw [Push_eval h (h.count_nonneg hc) data m] at hacc ⊢
  by_cases hcap : s.length + (m + 1) ≤ P * B + NB * B
  · rw [if_pos hcap]
    have hm : m + 1 ≤ NB * B := by have := h.lo; omega
    refine ⟨?_, ?_, ?_⟩
    · intro i hi
      rw [hidx]
      exact copy_written f data (NB * B) _ (m + 1) h.size h.tail htl hm i (by omega)
    · intro j hj
      apply copy_frame f data (NB * B) _ (m + 1) h.size h.tail htl
      intro k hk
      rw [← hidx]
      exact hj k (by omega)
    · show _ = _
      rw [eS, h.tail, ← Nat.cast_add, ← Int.natCast_mod, Nat.mod_add_mod]
  · rw [if_neg hcap] at hacc
    simp at hacc

/-- Witness of C6: a push of three bytes at tail 3 of a 2 × 2 ring, which straddles the end of the store. -/
theorem wraparound_witness :
    (0 : Int) < 2 ∧ (0 : Int) < 2 ∧ (0 : Int) < 3 ∧
    (Push (run (Init (fresh Nat) 2 2) [Op.Push (fun i => i) 3, Op.Pop])
      (fun i => 10 + i) 3).1 = true ∧
    (Push (run (Init (fresh Nat) 2 2) [Op.Push (fun i => i) 3, Op.Pop])
      (fun i => 10 + i) 3).2.tail
      = ((run (Init (fresh Nat) 2 2) [Op.Push (fun i => i) 3, Op.Pop]).tail + 3) % (2 * 2) :=
  ⟨by decide, by decide, by decide, by decide,
    (wraparound (fresh Nat) 2 2 (by decide) (by decide) [Op.Push (fun i => i) 3, Op.Pop]
      (fun i => 10 + i) 3 (by decide) (by decide)).2.2⟩

/-- C7 (ring invariant).  Every state reached from `Init(blockSize,
blockCount)`, both positive, by `Push`, `Pop`, `Wait`, `Full`, `Front` and
`Halt` calls has `0 ≤ head, tail < blockSize * blockCount`, head a multiple
of `blockSize`, and a counter that is `-1` or lies in `[0, blockCount]` with
`(head + count * blockSize) mod (blockSize * blockCount) = tail - tail mod blockSize`. -/
theorem ring_invariant [Inhabited T] (g : FIFO T) (blockSize blockCount : Int)
    (hbs : 0 < blockSize) (hbc : 0 < blockCount) (ops : List (Op T)) :
    0 ≤ (run (Init g blockSize blockCount) ops).head ∧
    (run (Init g blockSize blockCount) ops).head < blockSize * blockCount ∧
    0 ≤ (run (Init g blockSize blockCount) ops).tail ∧
    (run (Init g blockSize blockCount) ops).tail < blockSize * blockCount ∧
    (run (Init g blockSize blockCount) ops).head % blockSize = 0 ∧
    ((run (Init g blockSize blockCount) ops).count = -1 ∨
      (0 ≤ (run (Init g blockSize blockCount) ops).count ∧
       (run (Init g blockSize blockCount) ops).count ≤ blockCount ∧
       ((run (Init g blockSize blockCount) ops).head
          + (run (Init g blockSize blockCount) ops).count * blockSize)
          % (blockSize * blockCount)
        = (run (Init g blockSize blockCount) ops).tail
          - (run (Init g blockSize blockCount) ops).tail % blockSize)) := by
  obtain ⟨B, rfl⟩ := Int.eq_ofNat_of_zero_le hbs.le
  obtain ⟨NB, rfl⟩ := Int.eq_ofNat_of_zero_le hbc.le
  exact (Sim_reach g B NB (by omega) (by omega) ops).inv

/-- Witness of C7: a run with a wrapping push and a final `Halt` on a 2 × 2 ring. -/
theorem ring_invariant_witness :
    (0 : Int) < 2 ∧ (0 : Int) < 2 ∧
    (run (Init (fresh Nat) 2 2)
      [Op.Push (fun i => i) 3, Op.Pop, Op.Push (fun i => 10 + i) 3, Op.Halt]).head % 2 = 0 :=
  ⟨by decide, by decide,
    (ring_invariant (fresh Nat) 2 2 (by decide) (by decide)
      [Op.Push (fun i => i) 3, Op.Pop, Op.Push (fun i => 10 + i) 3, Op.Halt]).2.2.2.2.1⟩

/-- C10 (end-to-end block delivery).  After `Init(blockSize, blockCount)`,
both positive, one `Push` of `blockSize * blockCount` bytes returns true and
leaves the counter at `blockCount`, the ring full and the tail at 0; each of
the next `blockCount` rounds of `Wait` then `Pop` has `Wait` return true
without entering the timed wait; after the last `Pop` the counter and the
head are 0 and `Wait` enters the timed wait and returns false. -/
theorem end_to_end [Inhabited T] (g : FIFO T) (blockSize blockCount : Int)
    (hbs : 0 < blockSize) (hbc : 0 < blockCount) (data : Nat → T) :
    (Push (Init g blockSize blockCount) data (blockSize * blockCount)).1 = true ∧
    (Push (Init g blockSize blockCount) data (blockSize * blockCount)).2.count = blockCount ∧
    Full (Push (Init g blockSize blockCount) data (blockSize * blockCount)).2 = true ∧
    (Push (Init g blockSize blockCount) data (blockSize * blockCount)).2.tail = 0 ∧
    (∀ i : Nat, (i : Int) < blockCount →
      WaitBlocks (run (Push (Init g blockSize blockCount) data (blockSize * blockCount)).2
        (rounds i)) = false ∧
      Wait (run (Push (Init g blockSize blockCount) data (blockSize * blockCount)).2
        (rounds i)) = true) ∧
    (run (Push (Init g blockSize blockCount) data (blockSize * blockCount)).2
      (rounds blockCount.toNat)).count = 0 ∧
    (run (Push (Init g blockSize blockCount) data (blockSize * blockCount)).2
      (rounds blockCount.toNat)).head = 0 ∧
    WaitBlocks (run (Push (Init g blockSize blockCount) data (blockSize * blockCount)).2
      (rounds blockCount.toNat)) = true ∧
    Wait (run (Push (Init g blockSize blockCount) data (blockSize * blockCount)).2
      (rounds blockCount.toNat)) = false := by
  obtain ⟨B, rfl⟩ := Int.eq_ofNat_of_zero_le hbs.le
  obtain ⟨NB, rfl⟩ := Int.eq_ofNat_of_zero_le hbc.le
  have hB : 0 < B := by omega
  have hNB : 0 < NB := by omega
  have hS : 0 < B * NB := Nat.mul_pos hB hNB
  obtain ⟨m, hm⟩ : ∃ m : Nat, B * NB = m + 1 := ⟨B * NB - 1, by omega⟩
  have esz : (B : Int) * (NB : Int) = ((m + 1 : Nat) : Int) := by rw [← hm]; push_cast; ring
  have h0 := Sim_Init g (B : Int) (NB : Int) hbs hbc
  simp only [Int.toNat_natCast] at h0
  have hc0 : 0 ≤ (Init g (B : Int) (NB : Int)).count := by simp [Init]
  have hcap : ([] : List T).length + (m + 1) ≤ 0 * B + NB * B := by
    rw [← hm, Nat.mul_comm B NB]; simp
  have h1 := Sim_Push_accept h0 data m hcap
  rw [esz, Push_eval h0 hc0 data m, if_pos hcap]
  have ediv : (([] : List T).length + (m + 1)) / B = NB := by
    rw [← hm]; simp [Nat.mul_div_cancel_left _ hB]
  have emod : (([] : List T).length + (m + 1)) % (NB * B) = 0 := by
    rw [← hm, Nat.mul_comm B NB]; simp
  rw [ediv, emod] at h1 ⊢
  generalize hf1 : ({ Init g (B : Int) (NB : Int) with
      _data := copy (Init g (B : Int) (NB : Int)) data ((m + 1 : Nat) : Int)
      count := ((NB : Nat) : Int) - ((0 : Nat) : Int)
      tail := ((0 : Nat) : Int) } : FIFO T) = f1 at h1 ⊢
  have hcnt : f1.count = (NB : Int) := by rw [← hf1]; simp
  have hnb : f1.N_BLOCKS = (NB : Int) := h1.nb
  have htl : f1.tail = 0 := by rw [← hf1]; simp
  rw [Int.toNat_natCast]
  dsimp only
  refine ⟨rfl, hcnt, by simp [Full, hcnt, hnb], htl, ?_, ?_⟩
  · intro i hi
    obtain ⟨_, h3⟩ := rounds_run i f1 0 NB h1 hcnt (by omega)
    constructor
    · simp only [WaitBlocks, h3, decide_eq_false_iff_not]; omega
    · simp only [Wait, h3, decide_eq_true_eq]; omega
  · obtain ⟨h2, h3⟩ := rounds_run NB f1 0 NB h1 hcnt le_rfl
    have hh : (run f1 (rounds NB)).head = 0 := by
      rw [h2.head]; simp
    refine ⟨by rw [h3]; omega, hh, ?_, ?_⟩
    · simp only [WaitBlocks, h3, decide_eq_true_eq]; omega
    · simp only [Wait, h3, decide_eq_false_iff_not]; omega

/-- Witness of C10: `blockSize = 1024`, `blockCount = 4`, one push of 4096 bytes. -/
theorem end_to_end_witness :
    (0 : Int) < 1024 ∧ (0 : Int) < 4 ∧
    (Push (Init (fresh Nat) 1024 4) (fun i => i) (1024 * 4)).1 = true ∧
    (Push (Init (fresh Nat) 1024 4) (fun i => i) (1024 * 4)).2.count = 4 :=
  ⟨by decide, by decide,
    (end_to_end (fresh Nat) 1024 4 (by decide) (by decide) (fun i => i)).1,
    (end_to_end (fresh Nat) 1024 4 (by decide) (by decide) (fun i => i)).2.1⟩

end FIFO

namespace FIFO

variable {T : Type}

/-- C14 (Pop contract and frame).  In a ring state with `blockSize`,
`blockCount > 0`, a store of `blockSize * blockCount` bytes and a head that
is not negative: when the counter is positive `Pop` sets the head to
`(head + blockSize) mod (blockSize * blockCount)` and decrements the counter
by one; when it is zero or the sentinel `Pop` changes nothing; the tail, the
store and the geometry are unchanged in both cases. -/
theorem Pop_contract (f : FIFO T) (blockSize blockCount : Int) (hbs : 0 < blockSize)
    (hbc : 0 < blockCount) (hB : f.BLOCK_SIZE = blockSize) (hN : f.N_BLOCKS = blockCount)
    (hsize : (f._data.length : Int) = blockSize * blockCount) (hhead : 0 ≤ f.head) :
    (0 < f.count →
      (Pop f).head = (f.head + blockSize) % (blockSize * blockCount) ∧
      (Pop f).count = f.count - 1) ∧
    (¬ 0 < f.count → Pop f = f) ∧
    (Pop f).tail = f.tail ∧ (Pop f)._data = f._data ∧
    (Pop f).BLOCK_SIZE = blockSize ∧ (Pop f).N_BLOCKS = blockCount := by
  have hS : 0 ≤ blockSize * blockCount := by positivity
  by_cases hc : 0 < f.count
  · have e : Pop f = { f with
        head := (f.head + f.BLOCK_SIZE).tmod (f._data.length : Int)
        count := f.count - 1 } := by
      unfold Pop; rw [if_pos hc]
    rw [e]
    refine ⟨fun _ => ⟨?_, rfl⟩, fun h => absurd hc h, rfl, rfl, hB, hN⟩
    show (f.head + f.BLOCK_SIZE).tmod _ = _
    rw [hB, hsize, Int.tmod_eq_emod (by omega) hS]
  · rw [Pop_of_not_pos f hc]
    exact ⟨fun h => absurd h hc, fun _ => rfl, rfl, rfl, hB, hN⟩

/-- Witness of C14: a 2 × 2 ring with one complete block at head 2. -/
theorem Pop_contract_witness :
    (0 : Int) < 2 ∧ (0 : Int) < (⟨[0, 1, 2, 3], 2, 1, 1, 2, 2⟩ : FIFO Nat).count ∧
    (Pop (⟨[0, 1, 2, 3], 2, 1, 1, 2, 2⟩ : FIFO Nat)).head = (2 + 2) % (2 * 2) ∧
    (Pop (⟨[0, 1, 2, 3], 2, 1, 1, 2, 2⟩ : FIFO Nat)).count = 1 - 1 :=
  ⟨by decide, by decide,
    ((Pop_contract (⟨[0, 1, 2, 3], 2, 1, 1, 2, 2⟩ : FIFO Nat) 2 2 (by decide) (by decide)
      rfl rfl (by decide) (by decide)).1 (by decide)).1,
    ((Pop_contract (⟨[0, 1, 2, 3], 2, 1, 1, 2, 2⟩ : FIFO Nat) 2 2 (by decide) (by decide)
      rfl rfl (by decide) (by decide)).1 (by decide)).2⟩

/-- C19 (Push is compatible with splitting).  In a non-halted state reached
from `Init(blockSize, blockCount)`, both positive, for all byte sequences `a`
and `b`: if `Push(a ++ b)` returns true then `Push(a)` returns true, the
following `Push(b)` returns true, and the state after the two calls (head,
tail, counter, store) is the state after the single `Push(a ++ b)`. -/
theorem Push_split [Inhabited T] (g : FIFO T) (blockSize blockCount : Int)
    (hbs : 0 < blockSize) (hbc : 0 < blockCount) (ops : List (Op T))
    (hnh : (run (Init g blockSize blockCount) ops).count ≠ -1) (a b : List T)
    (hacc : (Push (run (Init g blockSize blockCount) ops) (ptr (a ++ b))
      ((a ++ b).length : Int)).1 = true) :
    (Push (run (Init g blockSize blockCount) ops) (ptr a) (a.length : Int)).1 = true ∧
    (Push (Push (run (Init g blockSize blockCount) ops) (ptr a) (a.length : Int)).2
      (ptr b) (b.length : Int)).1 = true ∧
    (Push (Push (run (Init g blockSize blockCount) ops) (ptr a) (a.length : Int)).2
      (ptr b) (b.length : Int)).2
      = (Push (run (Init g blockSize blockCount) ops) (ptr (a ++ b))
          ((a ++ b).length : Int)).2 := by
  obtain ⟨B, rfl⟩ := Int.eq_ofNat_of_zero_le hbs.le
  obtain ⟨NB, rfl⟩ := Int.eq_ofNat_of_zero_le hbc.le
  have h := Sim_reach g B NB (by omega) (by omega) ops
  have hc := h.count_nonneg hnh
  rw [List.length_append] at hacc ⊢
  refine Push_split_core h hc (ptr (a ++ b)) (ptr a) (ptr b) a.length b.length ?_ ?_ hacc
  · intro k hk
    simp only [ptr]
    rw [List.getD_append _ _ _ _ hk]
  · intro k _
    simp only [ptr]
    rw [List.getD_append_right _ _ _ _ (by omega)]
    congr 1
    omega

/-- Witness of C19: on a 2 × 2 ring with tail 3 and head 2, the push of
`[10, 11, 12]`, which wraps, against the pushes of `[10]` and `[11, 12]`. -/
theorem Push_split_witness :
    (0 : Int) < 2 ∧
    (run (Init (fresh Nat) 2 2) [Op.Push (fun i => i) 3, Op.Pop]).count ≠ -1 ∧
    (Push (run (Init (fresh Nat) 2 2) [Op.Push (fun i => i) 3, Op.Pop]) (ptr ([10] ++ [11, 12]))
      (([10] ++ [11, 12] : List Nat).length : Int)).1 = true ∧
    (Push (Push (run (Init (fresh Nat) 2 2) [Op.Push (fun i => i) 3, Op.Pop]) (ptr [10])
        (([10] : List Nat).length : Int)).2 (ptr [11, 12]) (([11, 12] : List Nat).length : Int)).2
      = (Push (run (Init (fresh Nat) 2 2) [Op.Push (fun i => i) 3, Op.Pop])
          (ptr ([10] ++ [11, 12])) (([10] ++ [11, 12] : List Nat).length : Int)).2 :=
  ⟨by decide, by decide, by decide,
    (Push_split (fresh Nat) 2 2 (by decide) (by decide) [Op.Push (fun i => i) 3, Op.Pop]
      (by decide) [10] [11, 12] (by decide)).2.2⟩

end FIFO

/-! ## The default sample rate -/

namespace AIRSPYHF

/-- C8 (default sample rate), the source at a failing input.  With the
candidate rates 192000, 256000, 384000, 768000 and the requested rate 1536000
`setDefaultRate` selects 192000 although 768000 is in the list and is
strictly nearer to the requested rate: `mindelta` starts at `rates[0]`, not
at the distance of `rates[0]`, and no candidate has a distance below it. -/
theorem setDefaultRate_not_nearest :
    setDefaultRate [192000, 256000, 384000, 768000] 1536000 = some 192000 ∧
    768000 ∈ [192000, 256000, 384000, 768000] ∧
    ((768000 : Int) - 1536000).natAbs < ((192000 : Int) - 1536000).natAbs := by
  decide

end AIRSPYHF

/-! ## The spectral transform: lemmas -/

namespace FFT

theorem step1_eq (y x : Nat) : rev.step1 (y, x) = (y * 2 + x % 2, x / 2) := by
  unfold rev.step1
  have h1 : x &&& 1 = x % 2 := Nat.and_one_is_mod x
  have h2 : x % 2 < 2 ^ 1 := Nat.mod_lt _ (by norm_num)
  have h3 := Nat.mul_add_lt_is_or h2 y
  simp only [h1, Nat.shiftLeft_eq, Nat.shiftRight_eq_div_pow, pow_one]
  rw [Nat.mul_comm y 2]
  rw [pow_one] at h3
  rw [h3]

theorem step1_iterate (c : Nat) : ∀ y x : Nat,
    rev.step1^[c] (y, x) = (y * 2 ^ c + brev c x, x / 2 ^ c) := by
  induction c with
  | zero => intro y x; simp [brev]
  | succ c ih =>
    intro y x
    rw [Function.iterate_succ_apply, step1_eq, ih]
    refine Prod.ext ?_ ?_
    · simp only [brev]; ring
    · simp only [Nat.div_div_eq_div_mul, pow_succ']

theorem rev4_eq (x : Nat) : rev4.getD (x % 16) 0 = brev 4 x := by
  have e : brev 4 x = (x % 16 % 2) * 8 + (x % 16 / 2 % 2) * 4 + (x % 16 / 4 % 2) * 2
      + (x % 16 / 8 % 2) := by
    simp only [brev]
    omega
  rw [e]
  have h : x % 16 < 16 := Nat.mod_lt _ (by norm_num)
  generalize x % 16 = r at h
  interval_cases r <;> rfl

theorem step4_eq (st : Nat × Nat) : rev.step4 st = rev.step1^[4] st := by
  obtain ⟨y, x⟩ := st
  rw [step1_iterate]
  unfold rev.step4
  have h1 : x &&& 15 = x % 16 := Nat.and_pow_two_sub_one_eq_mod x 4
  have h2 : brev 4 x < 2 ^ 4 := by
    rw [← rev4_eq]
    have h : x % 16 < 16 := Nat.mod_lt _ (by norm_num)
    generalize x % 16 = r at h
    interval_cases r <;> decide
  have h3 := Nat.mul_add_lt_is_or h2 y
  simp only [h1, rev4_eq, Nat.shiftLeft_eq, Nat.shiftRight_eq_div_pow]
  rw [Nat.mul_comm y (2 ^ 4), h3]

theorem step4_iterate (c : Nat) (st : Nat × Nat) :
    rev.step4^[c] st = rev.step1^[4 * c] st := by
  have e : rev.step4 = rev.step1^[4] := funext step4_eq
  rw [e, ← Function.iterate_mul]

/-- `FFT::rev` is the plain bit reversal. -/
theorem rev_eq_brev (x L : Nat) : rev x L = brev L x := by
  unfold rev
  rw [step4_iterate, ← Function.iterate_add_apply]
  have e : L - ((L >>> 2) <<< 2) + 4 * (L >>> 2) = L := by
    simp only [Nat.shiftLeft_eq, Nat.shiftRight_eq_div_pow]
    omega
  rw [e, step1_iterate]
  simp

theorem brev_lt (s : Nat) : ∀ x, brev s x < 2 ^ s := by
  induction s with
  | zero => intro x; simp [brev]
  | succ s ih =>
    intro x
    have h1 := ih (x / 2)
    have h2 : x % 2 < 2 := Nat.mod_lt _ (by norm_num)
    have h3 : x % 2 * 2 ^ s ≤ 1 * 2 ^ s := Nat.mul_le_mul_right _ (by omega)
    simp only [brev, pow_succ]
    omega

theorem brev_even (s n : Nat) : brev (s + 1) (2 * n) = brev s n := by
  simp [brev]

theorem brev_odd (s n : Nat) : brev (s + 1) (2 * n + 1) = 2 ^ s + brev s n := by
  have h1 : (2 * n + 1) % 2 = 1 := by omega
  have h2 : (2 * n + 1) / 2 = n := by omega
  simp [brev, h1, h2]

set_option linter.unusedSectionVars false

variable {C : Type} [CommRing C]

theorem fft_resize_length (v : List C) (n : Nat) : (resize v n).length = n := by
  simp [resize]; omega

theorem calcOmega_fold (cis : Nat → Nat → C) (N K : Nat) (l : List C) :
    ((List.range K).foldl (fun Om s => Om.set s (cis s N)) l).length = l.length ∧
    ∀ i, ((List.range K).foldl (fun Om s => Om.set s (cis s N)) l)[i]? =
      if i < K ∧ i < l.length then some (cis i N) else l[i]? := by
  induction K with
  | zero => simp
  | succ K ih =>
    obtain ⟨h1, h2⟩ := ih
    rw [List.range_succ, List.foldl_append]
    simp only [List.foldl_cons, List.foldl_nil, List.length_set, List.getElem?_set, h1, h2]
    refine ⟨trivial, fun i => ?_⟩
    by_cases hi : K = i
    · subst hi
      by_cases hl : K < l.length
      · simp [hl]
      · have : l[K]? = none := List.getElem?_eq_none (by omega)
        simp [hl, this]
    · by_cases hc : i < K ∧ i < l.length
      · have : i < K + 1 ∧ i < l.length := by omega
        simp [hi, hc, this]
      · have : ¬ (i < K + 1 ∧ i < l.length) := by omega
        simp [hi, hc, this]

theorem calcOmega_eq (cis : Nat → Nat → C) (Omega : List C) (N : Nat) :
    calcOmega cis Omega N = (List.range N).map (fun s => cis s N) := by
  obtain ⟨h1, h2⟩ := calcOmega_fold cis N N (resize Omega N)
  apply List.ext_getElem?
  intro i
  unfold calcOmega
  rw [h2, fft_resize_length, List.getElem?_map]
  by_cases hi : i < N
  · simp [hi, List.getElem?_range hi]
  · have e1 : (resize Omega N)[i]? = none :=
      List.getElem?_eq_none (by rw [fft_resize_length]; omega)
    have e2 : (List.range N)[i]? = none := List.getElem?_eq_none (by simp; omega)
    simp [hi, e1, e2]

theorem calcOmega_getD (cis : Nat → Nat → C) (Omega : List C) (N s : Nat) (hs : s < N) :
    (calcOmega cis Omega N)[s]? = some (cis s N) := by
  rw [calcOmega_eq, List.getElem?_map, List.getElem?_range hs]; rfl

theorem getElem?_eq_some_getD (x : List C) (i : Nat) (h : i < x.length) :
    x[i]? = some (x.getD i 0) := by
  rw [List.getD_eq_getElem?_getD, List.getElem?_eq_getElem h]; rfl

theorem getD_set (x : List C) (i p : Nat) (v : C) (h : i < x.length) :
    (x.set i v).getD p 0 = if p = i then v else x.getD p 0 := by
  rw [List.getD_eq_getElem?_getD, List.getD_eq_getElem?_getD, List.getElem?_set]
  by_cases hp : i = p
  · subst hp; simp [h]
  · have : ¬ p = i := fun e => hp e.symm
    simp [hp, this]

theorem butterfly_spec (o : C) (a b : Nat) (x : List C) (hab : a ≠ b)
    (ha : a < x.length) (hb : b < x.length) :
    ∃ y, butterfly o a b x = some y ∧ y.length = x.length ∧
      ∀ p, y.getD p 0 =
        if p = a then x.getD a 0 + o * x.getD b 0
        else if p = b then x.getD a 0 - o * x.getD b 0
        else x.getD p 0 := by
  have ha1 : a < (x.set b (x.getD a 0 - o * x.getD b 0)).length := by
    rw [List.length_set]; exact ha
  refine ⟨(x.set b (x.getD a 0 - o * x.getD b 0)).set a
    ((x.set b (x.getD a 0 - o * x.getD b 0)).getD a 0 + o * x.getD b 0), ?_, ?_, ?_⟩
  · unfold butterfly
    rw [getElem?_eq_some_getD x b hb, getElem?_eq_some_getD x a ha]
    simp only [Option.bind_eq_bind, Option.some_bind]
    rw [getElem?_eq_some_getD _ a ha1]
    simp only [Option.some_bind]
  · simp
  · intro p
    rw [getD_set _ _ _ _ ha1, getD_set _ _ _ _ hb, getD_set _ _ _ _ hb]
    by_cases h1 : p = a
    · simp [h1, hab]
    · simp [h1]

theorem pos_inj (m2 q h e q' h' e' : Nat) (hh : h < 2) (hh' : h' < 2) (he : e < m2)
    (he' : e' < m2) :
    (2 * q + h) * m2 + e = (2 * q' + h') * m2 + e' ↔ q = q' ∧ h = h' ∧ e = e' := by
  have hm2 : 0 < m2 := by omega
  constructor
  · intro H
    have d1 : ((2 * q + h) * m2 + e) / m2 = 2 * q + h := by
      rw [Nat.add_comm, Nat.add_mul_div_right _ _ hm2, Nat.div_eq_of_lt he, Nat.zero_add]
    have d2 : ((2 * q' + h') * m2 + e') / m2 = 2 * q' + h' := by
      rw [Nat.add_comm, Nat.add_mul_div_right _ _ hm2, Nat.div_eq_of_lt he', Nat.zero_add]
    have r1 : ((2 * q + h) * m2 + e) % m2 = e := by
      rw [Nat.add_comm, Nat.add_mul_mod_self_right, Nat.mod_eq_of_lt he]
    have r2 : ((2 * q' + h') * m2 + e') % m2 = e' := by
      rw [Nat.add_comm, Nat.add_mul_mod_self_right, Nat.mod_eq_of_lt he']
    rw [H] at d1 r1
    rw [d2] at d1
    rw [r2] at r1
    omega
  · rintro ⟨rfl, rfl, rfl⟩; rfl

theorem pos_lt (m2 cnt q h e : Nat) (hh : h < 2) (he : e < m2) (hq : q < cnt) :
    (2 * q + h) * m2 + e < cnt * (2 * m2) := by
  have h1 : (2 * q + h + 1) * m2 ≤ (2 * cnt) * m2 := Nat.mul_le_mul_right _ (by omega)
  have h2 : (2 * q + h + 1) * m2 = (2 * q + h) * m2 + m2 := by ring
  have h3 : cnt * (2 * m2) = (2 * cnt) * m2 := by ring
  omega

/-- The `k` loop from block `i0` on: the butterflies of column `j` in the
blocks `i0 ≤ q < cnt`, every other element unchanged. -/
theorem kLoop_spec (o : C) (j m2 cnt : Nat) (hj : j < m2) :
    ∀ (rem i0 fuel : Nat) (x : List C), i0 + rem = cnt → rem ≤ fuel →
      x.length = cnt * (2 * m2) →
      ∃ y, kLoop o j (2 * m2) m2 (cnt * (2 * m2)) fuel (i0 * (2 * m2)) x = some y ∧
        y.length = x.length ∧
        ∀ q h e, h < 2 → e < m2 →
          y.getD ((2 * q + h) * m2 + e) 0 =
            if e = j ∧ i0 ≤ q ∧ q < cnt then
              (if h = 0 then
                x.getD ((2 * q) * m2 + j) 0 + o * x.getD ((2 * q + 1) * m2 + j) 0
              else x.getD ((2 * q) * m2 + j) 0 - o * x.getD ((2 * q + 1) * m2 + j) 0)
            else x.getD ((2 * q + h) * m2 + e) 0 := by
  intro rem
  induction rem with
  | zero =>
    intro i0 fuel x hi _ hx
    have hi0 : i0 = cnt := by omega
    subst hi0
    refine ⟨x, ?_, rfl, ?_⟩
    · cases fuel <;> simp [kLoop]
    · intro q h e _ _
      rw [if_neg (by omega)]
  | succ rem ih =>
    intro i0 fuel x hi hf hx
    obtain ⟨fuel, rfl⟩ : ∃ f, fuel = f + 1 := ⟨fuel - 1, by omega⟩
    have hi0 : i0 < cnt := by omega
    have hk : i0 * (2 * m2) < cnt * (2 * m2) :=
      Nat.mul_lt_mul_of_pos_right hi0 (by omega)
    have ea : i0 * (2 * m2) + j = (2 * i0 + 0) * m2 + j := by ring
    have eb : i0 * (2 * m2) + j + m2 = (2 * i0 + 1) * m2 + j := by ring
    have la := pos_lt m2 cnt i0 0 j (by omega) hj hi0
    have lb := pos_lt m2 cnt i0 1 j (by omega) hj hi0
    have hab : (2 * i0 + 0) * m2 + j ≠ (2 * i0 + 1) * m2 + j := by
      intro H
      have := (pos_inj m2 i0 0 j i0 1 j (by omega) (by omega) hj hj).1 H
      omega
    obtain ⟨y1, hy1, hl1, hp1⟩ := butterfly_spec o _ _ x hab (by rw [hx]; exact la)
      (by rw [hx]; exact lb)
    obtain ⟨y, hy, hl, hp⟩ := ih (i0 + 1) fuel y1 (by omega) (by omega) (by rw [hl1, hx])
    refine ⟨y, ?_, by rw [hl, hl1], ?_⟩
    · have ek : i0 * (2 * m2) + 2 * m2 = (i0 + 1) * (2 * m2) := by ring
      rw [kLoop, if_pos hk, eb, ea, hy1, Option.some_bind, ek]
      exact hy
    · have hy1c : ∀ q h e, h < 2 → e < m2 →
          y1.getD ((2 * q + h) * m2 + e) 0 =
            if q = i0 ∧ e = j then
              (if h = 0 then
                x.getD ((2 * i0 + 0) * m2 + j) 0 + o * x.getD ((2 * i0 + 1) * m2 + j) 0
              else x.getD ((2 * i0 + 0) * m2 + j) 0 - o * x.getD ((2 * i0 + 1) * m2 + j) 0)
            else x.getD ((2 * q + h) * m2 + e) 0 := by
        intro q h e hh he
        rw [hp1]
        have c0 := pos_inj m2 q h e i0 0 j hh (by omega) he hj
        have c1 := pos_inj m2 q h e i0 1 j hh (by omega) he hj
        by_cases hq : q = i0 ∧ e = j
        · rw [if_pos hq]
          by_cases h0 : h = 0
          · have e0 : (2 * q + h) * m2 + e = (2 * i0 + 0) * m2 + j := c0.2 ⟨hq.1, h0, hq.2⟩
            rw [if_pos e0, if_pos h0]
          · have n0 : ¬ (2 * q + h) * m2 + e = (2 * i0 + 0) * m2 + j := fun H => h0 (c0.1 H).2.1
            have e1 : (2 * q + h) * m2 + e = (2 * i0 + 1) * m2 + j :=
              c1.2 ⟨hq.1, by omega, hq.2⟩
            rw [if_neg n0, if_pos e1, if_neg h0]
        · have n0 : ¬ (2 * q + h) * m2 + e = (2 * i0 + 0) * m2 + j :=
            fun H => hq ⟨(c0.1 H).1, (c0.1 H).2.2⟩
          have n1 : ¬ (2 * q + h) * m2 + e = (2 * i0 + 1) * m2 + j :=
            fun H => hq ⟨(c1.1 H).1, (c1.1 H).2.2⟩
          rw [if_neg hq, if_neg n0, if_neg n1]
      intro q h e hh he
      rw [hp q h e hh he]
      by_cases hc : e = j ∧ i0 + 1 ≤ q ∧ q < cnt
      · have hc1 : e = j ∧ i0 ≤ q ∧ q < cnt := ⟨hc.1, by omega, hc.2.2⟩
        have hne : ¬ (q = i0 ∧ j = j) := by omega
        have hx0 := hy1c q 0 j (by omega) hj
        have hx1 := hy1c q 1 j (by omega) hj
        rw [if_neg hne] at hx0 hx1
        have e2 : (2 * q) * m2 + j = (2 * q + 0) * m2 + j := by ring
        rw [if_pos hc, if_pos hc1, e2, hx0, hx1]
      · rw [if_neg hc, hy1c q h e hh he]
        by_cases hq : q = i0 ∧ e = j
        · have hc1 : e = j ∧ i0 ≤ q ∧ q < cnt := ⟨hq.2, by omega, by omega⟩
          have e2 : (2 * q) * m2 + j = (2 * i0 + 0) * m2 + j := by rw [hq.1, Nat.add_zero]
          have e3 : (2 * q + 1) * m2 + j = (2 * i0 + 1) * m2 + j := by rw [hq.1]
          rw [if_pos hq, if_pos hc1, e2, e3]
        · have hc1 : ¬ (e = j ∧ i0 ≤ q ∧ q < cnt) := by omega
          rw [if_neg hq, if_neg hc1]

/-- The `j` loop after `J` iterations: the butterflies of the columns below
`J`, with twiddle `tw e` in column `e`. -/
theorem jLoop_spec (Omega : List C) (tw : Nat → C) (m2 cnt r : Nat) (hm2 : 0 < m2)
    (hΩ : ∀ e, e < m2 → Omega[e * r]? = some (tw e)) (x : List C)
    (hx : x.length = cnt * (2 * m2)) :
    ∀ J, J ≤ m2 →
      ∃ y, (List.range J).foldlM (jBody Omega (2 * m2) m2 r (cnt * (2 * m2))) (x, 0)
          = some (y, J * r) ∧
        y.length = x.length ∧
        ∀ q h e, h < 2 → e < m2 →
          y.getD ((2 * q + h) * m2 + e) 0 =
            if e < J ∧ q < cnt then
              (if h = 0 then
                x.getD ((2 * q) * m2 + e) 0 + tw e * x.getD ((2 * q + 1) * m2 + e) 0
              else x.getD ((2 * q) * m2 + e) 0 - tw e * x.getD ((2 * q + 1) * m2 + e) 0)
            else x.getD ((2 * q + h) * m2 + e) 0 := by
  intro J
  induction J with
  | zero =>
    intro _
    refine ⟨x, by simp, rfl, ?_⟩
    intro q h e _ _
    rw [if_neg (by omega)]
  | succ J ih =>
    intro hJ
    obtain ⟨y0, hy0, hl0, hp0⟩ := ih (by omega)
    have hfuel : cnt ≤ cnt * (2 * m2) := Nat.le_mul_of_pos_right _ (by omega)
    obtain ⟨y, hy, hl, hp⟩ := kLoop_spec (tw J) J m2 cnt (by omega) cnt 0
      (cnt * (2 * m2)) y0 (by omega) hfuel (by rw [hl0, hx])
    rw [Nat.zero_mul] at hy
    refine ⟨y, ?_, by rw [hl, hl0], ?_⟩
    · rw [List.range_succ, List.foldlM_append, hy0]
      simp only [Option.bind_eq_bind, Option.some_bind, List.foldlM_cons, List.foldlM_nil,
        jBody, hΩ J (by omega), hy, Option.pure_def, Option.bind_some]
      congr 2
      ring
    · intro q h e hh he
      rw [hp q h e hh he]
      have a0 := hp0 q 0 J (by omega) (by omega)
      have a1 := hp0 q 1 J (by omega) (by omega)
      have nJ : ¬ (J < J ∧ q < cnt) := by omega
      rw [if_neg nJ] at a0 a1
      rw [Nat.add_zero] at a0
      by_cases hc : e = J ∧ 0 ≤ q ∧ q < cnt
      · have hc1 : e < J + 1 ∧ q < cnt := by omega
        rw [if_pos hc, if_pos hc1, a0, a1, hc.1]
      · rw [if_neg hc, hp0 q h e hh he]
        by_cases hc0 : e < J ∧ q < cnt
        · have hc1 : e < J + 1 ∧ q < cnt := by omega
          rw [if_pos hc0, if_pos hc1]
        · have hc1 : ¬ (e < J + 1 ∧ q < cnt) := by omega
          rw [if_neg hc0, if_neg hc1]

/-- One stage of the outer loop. -/
theorem sBody_spec (Omega : List C) (tw : Nat → C) (m2 cnt r s : Nat) (hm2 : 0 < m2)
    (hΩ : ∀ e, e < m2 → Omega[e * r]? = some (tw e)) (x : List C)
    (hx : x.length = cnt * (2 * m2)) :
    ∃ y, sBody Omega (cnt * (2 * m2)) { x := x, m := 2 * m2, m2 := m2, r := 2 * r } s
        = some { x := y, m := 2 * (2 * m2), m2 := 2 * m2, r := r } ∧
      y.length = x.length ∧
      ∀ q e, q < cnt → e < m2 →
        y.getD ((2 * q) * m2 + e) 0
          = x.getD ((2 * q) * m2 + e) 0 + tw e * x.getD ((2 * q + 1) * m2 + e) 0 ∧
        y.getD ((2 * q + 1) * m2 + e) 0
          = x.getD ((2 * q) * m2 + e) 0 - tw e * x.getD ((2 * q + 1) * m2 + e) 0 := by
  obtain ⟨y, hy, hl, hp⟩ := jLoop_spec Omega tw m2 cnt r hm2 hΩ x hx m2 le_rfl
  refine ⟨y, ?_, hl, ?_⟩
  · have e1 : (2 * r) >>> 1 = r := by
      rw [Nat.shiftRight_eq_div_pow]; omega
    have e2 : (2 * m2) <<< 1 = 2 * (2 * m2) := by
      rw [Nat.shiftLeft_eq]; omega
    simp only [sBody, e1, e2, hy, Option.bind_eq_bind, Option.some_bind]
  · intro q e hq he
    have a0 := hp q 0 e (by omega) he
    have a1 := hp q 1 e (by omega) he
    rw [if_pos ⟨he, hq⟩] at a0 a1
    rw [Nat.add_zero, if_pos rfl] at a0
    rw [if_neg (by omega)] at a1
    exact ⟨a0, a1⟩

theorem sum_range_even_odd (f : Nat → C) (M : Nat) :
    Finset.sum (Finset.range (2 * M)) f
      = Finset.sum (Finset.range M) (fun n => f (2 * n))
        + Finset.sum (Finset.range M) (fun n => f (2 * n + 1)) := by
  induction M with
  | zero => simp
  | succ M ih =>
    have e : 2 * (M + 1) = 2 * M + 1 + 1 := by ring
    rw [e, Finset.sum_range_succ, Finset.sum_range_succ, ih, Finset.sum_range_succ,
      Finset.sum_range_succ]
    ring

/-- The butterfly identity, upper half: the size-`2^(s+1)` transform at bin
`e` from the two size-`2^s` transforms. -/
theorem stageSum_lo (ω : C) (x : List C) (s d q e : Nat) :
    stageSum ω x (s + 1) d q e
      = stageSum ω x s (d + 1) (2 * q) e
        + ω ^ (e * 2 ^ d) * stageSum ω x s (d + 1) (2 * q + 1) e := by
  unfold stageSum
  rw [pow_succ', sum_range_even_odd, Finset.mul_sum]
  congr 1
  · apply Finset.sum_congr rfl
    intro n _
    rw [brev_even]
    have e1 : q * (2 * 2 ^ s) = 2 * q * 2 ^ s := by ring
    have e2 : 2 ^ d * (e * (2 * n)) = 2 ^ (d + 1) * (e * n) := by ring
    rw [e1, e2]
  · apply Finset.sum_congr rfl
    intro n _
    rw [brev_odd]
    have e1 : q * (2 * 2 ^ s) + (2 ^ s + brev s n) = (2 * q + 1) * 2 ^ s + brev s n := by ring
    have e2 : 2 ^ d * (e * (2 * n + 1)) = e * 2 ^ d + 2 ^ (d + 1) * (e * n) := by ring
    rw [e1, e2, pow_add]
    ring

/-- The butterfly identity, lower half: bin `e + 2^s`. -/
theorem stageSum_hi (ω : C) (x : List C) (s d q e : Nat)
    (h1 : ω ^ (2 ^ (s + d + 1)) = 1) (h2 : ω ^ (2 ^ (s + d)) = -1) :
    stageSum ω x (s + 1) d q (e + 2 ^ s)
      = stageSum ω x s (d + 1) (2 * q) e
        - ω ^ (e * 2 ^ d) * stageSum ω x s (d + 1) (2 * q + 1) e := by
  unfold stageSum
  rw [pow_succ', sum_range_even_odd, Finset.mul_sum, sub_eq_add_neg, ← Finset.sum_neg_distrib]
  congr 1
  · apply Finset.sum_congr rfl
    intro n _
    rw [brev_even]
    have e1 : q * (2 * 2 ^ s) = 2 * q * 2 ^ s := by ring
    have e2 : 2 ^ d * ((e + 2 ^ s) * (2 * n)) = 2 ^ (d + 1) * (e * n) + 2 ^ (s + d + 1) * n := by
      ring
    rw [e1, e2, pow_add, pow_mul _ (2 ^ (s + d + 1)), h1, one_pow, mul_one]
  · apply Finset.sum_congr rfl
    intro n _
    rw [brev_odd]
    have e1 : q * (2 * 2 ^ s) + (2 ^ s + brev s n) = (2 * q + 1) * 2 ^ s + brev s n := by ring
    have e2 : 2 ^ d * ((e + 2 ^ s) * (2 * n + 1))
        = e * 2 ^ d + 2 ^ (d + 1) * (e * n) + 2 ^ (s + d + 1) * n + 2 ^ (s + d) := by ring
    rw [e1, e2, pow_add, pow_add, pow_add, pow_mul _ (2 ^ (s + d + 1)), h1, one_pow, h2]
    ring

theorem log2_two_pow (L : Nat) : log2 (2 ^ L) = L := by
  induction L with
  | zero => rw [log2]; simp
  | succ L ih =>
    have h1 : 2 ^ (L + 1) / 2 = 2 ^ L := by rw [pow_succ]; omega
    have h2 : 2 ^ L ≠ 0 := by positivity
    rw [log2, h1, if_pos h2, ih]

/-- The outer loop after `s` stages, for a table of powers of `ω` with
`ω ^ (2^L / 2) = -1`. -/
theorem sLoop_spec (ω : C) (L : Nat) (Omega : List C)
    (hΩ : ∀ i, i < 2 ^ L → Omega[i]? = some (ω ^ i))
    (hω : ∀ L', L = L' + 1 → ω ^ (2 ^ L') = -1) (x : List C) (hx : x.length = 2 ^ L) :
    ∀ s d, s + d = L →
      ∃ y, (List.range s).foldlM (sBody Omega (2 ^ L)) { x := x, m := 2, m2 := 1, r := 2 ^ L }
          = some { x := y, m := 2 ^ (s + 1), m2 := 2 ^ s, r := 2 ^ d } ∧
        y.length = 2 ^ L ∧
        ∀ b j, b < 2 ^ d → j < 2 ^ s → y.getD (b * 2 ^ s + j) 0 = stageSum ω x s d b j := by
  intro s
  induction s with
  | zero =>
    intro d hd
    have hd' : d = L := by omega
    subst hd'
    refine ⟨x, by simp, hx, ?_⟩
    intro b j _ hj
    have hj0 : j = 0 := by simpa using hj
    subst hj0
    simp [stageSum, brev]
  | succ s ih =>
    intro d hd
    obtain ⟨y0, hy0, hl0, hp0⟩ := ih (d + 1) (by omega)
    have hN : 2 ^ L = 2 ^ d * (2 * 2 ^ s) := by
      rw [← hd]; ring
    have hm1 : ω ^ (2 ^ (s + d)) = -1 := hω (s + d) (by omega)
    have h1 : ω ^ (2 ^ (s + d + 1)) = 1 := by
      rw [pow_succ, pow_mul, hm1]; norm_num
    have hΩ' : ∀ e, e < 2 ^ s → Omega[e * 2 ^ d]? = some (ω ^ (e * 2 ^ d)) := by
      intro e he
      apply hΩ
      have : e * 2 ^ d < 2 ^ s * 2 ^ d := Nat.mul_lt_mul_of_pos_right he (by positivity)
      have e3 : 2 ^ d * (2 * 2 ^ s) = 2 * (2 ^ s * 2 ^ d) := by ring
      rw [hN, e3]
      omega
    obtain ⟨y, hy, hl, hp⟩ := sBody_spec Omega (fun e => ω ^ (e * 2 ^ d)) (2 ^ s) (2 ^ d)
      (2 ^ d) s (by positivity) hΩ' y0 (by rw [hl0, hN])
    refine ⟨y, ?_, by rw [hl, hl0], ?_⟩
    · rw [List.range_succ, List.foldlM_append, hy0]
      simp only [Option.bind_eq_bind, Option.some_bind, List.foldlM_cons, List.foldlM_nil]
      have e1 : (2 : Nat) ^ (s + 1) = 2 * 2 ^ s := by ring
      have e2 : (2 : Nat) ^ (d + 1) = 2 * 2 ^ d := by ring
      have e3 : (2 : Nat) ^ (s + 1 + 1) = 2 * (2 * 2 ^ s) := by ring
      rw [e1, e2, e3, hN, hy]
      rfl
    · intro b j hb hj
      have hq := hp b
      by_cases hlo : j < 2 ^ s
      · obtain ⟨a0, _⟩ := hq j hb hlo
        have p0 : b * 2 ^ (s + 1) + j = 2 * b * 2 ^ s + j := by ring
        have b0 : 2 * b < 2 ^ (d + 1) := by rw [pow_succ]; omega
        have b1 : 2 * b + 1 < 2 ^ (d + 1) := by rw [pow_succ]; omega
        rw [p0, a0, hp0 (2 * b) j b0 hlo, hp0 (2 * b + 1) j b1 hlo, stageSum_lo]
      · have hj2 : j < 2 * 2 ^ s := by rw [pow_succ] at hj; omega
        obtain ⟨e, rfl⟩ : ∃ e, j = e + 2 ^ s := ⟨j - 2 ^ s, by omega⟩
        have he : e < 2 ^ s := by omega
        obtain ⟨_, a1⟩ := hq e hb he
        have p1 : b * 2 ^ (s + 1) + (e + 2 ^ s) = (2 * b + 1) * 2 ^ s + e := by ring
        have b0 : 2 * b < 2 ^ (d + 1) := by rw [pow_succ]; omega
        have b1 : 2 * b + 1 < 2 ^ (d + 1) := by rw [pow_succ]; omega
        rw [p1, a1, hp0 (2 * b) e b0 he, hp0 (2 * b + 1) e b1 he, stageSum_hi ω x s d b e h1 hm1]

theorem Cache.Valid_empty (cis : Nat → Nat → C) : (Cache.empty C).Valid cis := by
  constructor
  · show 0 = log2 0
    rw [log2]; simp
  · rfl

/-- The statics after the size check do not depend on the statics before,
when those are consistent. -/
theorem fft_eval (cis : Nat → Nat → C) (c : Cache C) (hc : c.Valid cis) (x : List C) :
    fft cis c x =
      ((List.range (log2 x.length)).foldlM
        (sBody ((List.range x.length).map (fun s => cis s x.length)) x.length)
        { x := x, m := 2, m2 := 1, r := x.length }).map
        fun st => (({ Omega := (List.range x.length).map (fun s => cis s x.length)
                      N := x.length
                      logN := log2 x.length } : Cache C), st.x) := by
  unfold fft
  by_cases h : c.N ≠ x.length
  · simp only [if_pos h, calcOmega_eq]
  · have hN : c.N = x.length := not_not.1 h
    obtain ⟨Om, N, lg⟩ := c
    obtain ⟨h1, h2⟩ := hc
    simp only at hN h1 h2
    subst hN h1 h2
    simp only [if_neg h]

/-- The transform of a vector of `2^L` elements, for a table of powers of
`ω`: element `k` of the result is the sum of `x[rev(n, L)] * ω ^ (k * n)`. -/
theorem fft_generic (cis : Nat → Nat → C) (ω : C) (L : Nat)
    (hcis : ∀ s, s < 2 ^ L → cis s (2 ^ L) = ω ^ s)
    (hω : ∀ L', L = L' + 1 → ω ^ (2 ^ L') = -1)
    (c : Cache C) (hc : c.Valid cis) (x : List C) (hx : x.length = 2 ^ L) :
    ∃ y, fft cis c x =
        some ({ Omega := (List.range (2 ^ L)).map (fun s => cis s (2 ^ L))
                N := 2 ^ L
                logN := L }, y) ∧
      y.length = 2 ^ L ∧
      ∀ k, k < 2 ^ L →
        y.getD k 0 = Finset.sum (Finset.range (2 ^ L))
          (fun n => x.getD (rev n L) 0 * ω ^ (k * n)) := by
  have hΩ : ∀ i, i < 2 ^ L →
      ((List.range (2 ^ L)).map (fun s => cis s (2 ^ L)))[i]? = some (ω ^ i) := by
    intro i hi
    rw [List.getElem?_map, List.getElem?_range hi]
    simp [hcis i hi]
  obtain ⟨y, hy, hl, hp⟩ := sLoop_spec ω L _ hΩ hω x hx L 0 (by omega)
  refine ⟨y, ?_, hl, ?_⟩
  · rw [fft_eval cis c hc x, hx, log2_two_pow, hy]
    rfl
  · intro k hk
    have := hp 0 k (by simp) hk
    rw [Nat.zero_mul, Nat.zero_add] at this
    rw [this]
    unfold stageSum
    apply Finset.sum_congr rfl
    intro n _
    rw [rev_eq_brev]
    simp

theorem IsPolar.pow {cis : Nat → Nat → ℂ} (h : IsPolar cis) (s N : Nat) :
    cis s N = cis 1 N ^ s := by
  rw [h s N, h 1 N, ← Complex.exp_nat_mul]
  congr 1
  push_cast
  ring

theorem IsPolar.half {cis : Nat → Nat → ℂ} (h : IsPolar cis) (L : Nat) :
    cis 1 (2 ^ (L + 1)) ^ (2 ^ L) = -1 := by
  rw [h 1, ← Complex.exp_nat_mul]
  have e : ((2 ^ L : Nat) : ℂ) * ((((-2 * Real.pi) * ((1 : Nat) : ℝ) / ((2 ^ (L + 1) : Nat) : ℝ) : ℝ) : ℂ)
      * Complex.I) = -(Real.pi * Complex.I) := by
    push_cast
    have h2 : (2 : ℂ) ^ L ≠ 0 := pow_ne_zero _ (by norm_num)
    field_simp
    ring
  rw [e, Complex.exp_neg, Complex.exp_pi_mul_I]
  norm_num

theorem IsPolar.dft {cis : Nat → Nat → ℂ} (h : IsPolar cis) (L k n : Nat) :
    cis 1 (2 ^ L) ^ (k * n)
      = Complex.exp (-2 * Real.pi * Complex.I * n * k / 2 ^ L) := by
  rw [h 1, ← Complex.exp_nat_mul]
  congr 1
  push_cast
  ring

/-- Over exact complex numbers: element `k` of the result of `fft` on `2^L`
elements is the sum of `x[rev(n, L)] * exp(-2πi·n·k / 2^L)`. -/
theorem fft_complex (cis : Nat → Nat → ℂ) (hcis : IsPolar cis) (L : Nat)
    (c : Cache ℂ) (hc : c.Valid cis) (x : List ℂ) (hx : x.length = 2 ^ L) :
    ∃ y, fft cis c x =
        some ({ Omega := (List.range (2 ^ L)).map (fun s => cis s (2 ^ L))
                N := 2 ^ L
                logN := L }, y) ∧
      y.length = 2 ^ L ∧
      ∀ k, k < 2 ^ L →
        y.getD k 0 = Finset.sum (Finset.range (2 ^ L))
          (fun n => x.getD (rev n L) 0
            * Complex.exp (-2 * Real.pi * Complex.I * n * k / 2 ^ L)) := by
  obtain ⟨y, hy, hl, hp⟩ := fft_generic cis (cis 1 (2 ^ L)) L
    (fun s _ => hcis.pow s (2 ^ L)) (fun L' hL => by rw [hL]; exact hcis.half L') c hc x hx
  refine ⟨y, hy, hl, fun k hk => ?_⟩
  rw [hp k hk]
  apply Finset.sum_congr rfl
  intro n _
  rw [hcis.dft]

theorem Cache.Valid_table (cis : Nat → Nat → ℂ) (N : Nat) :
    Cache.Valid cis { Omega := (List.range N).map (fun s => cis s N), N := N, logN := log2 N } :=
  ⟨rfl, rfl⟩

theorem fftSeq_fresh (cis : Nat → Nat → ℂ) (hcis : IsPolar cis) (xs : List (List ℂ)) :
    ∀ c : Cache ℂ, c.Valid cis → (∀ x ∈ xs, ∃ L : Nat, x.length = 2 ^ L) →
      fftSeq cis c xs = xs.map (fft cis (Cache.empty ℂ)) := by
  induction xs with
  | nil => intro c _ _; rfl
  | cons x xs ih =>
    intro c hc hxs
    obtain ⟨L, hL⟩ := hxs x (List.mem_cons_self _ _)
    obtain ⟨y, hy, _, _⟩ := fft_complex cis hcis L c hc x hL
    obtain ⟨y0, hy0, _, _⟩ := fft_complex cis hcis L _ (Cache.Valid_empty cis) x hL
    have e : fft cis c x = fft cis (Cache.empty ℂ) x := by
      rw [fft_eval cis c hc, fft_eval cis _ (Cache.Valid_empty cis)]
    have hv : Cache.Valid cis
        { Omega := (List.range (2 ^ L)).map (fun s => cis s (2 ^ L)), N := 2 ^ L, logN := L } := by
      have := Cache.Valid_table cis (2 ^ L)
      rwa [log2_two_pow] at this
    rw [fftSeq, hy, List.map_cons, ← e, hy]
    simp only
    rw [ih _ hv (fun x hx => hxs x (List.mem_cons_of_mem _ hx))]

end FFT

namespace FFT

theorem brev_testBit (s : Nat) : ∀ x i : Nat,
    (brev s x).testBit i = (decide (i < s) && x.testBit (s - 1 - i)) := by
  induction s with
  | zero => intro x i; simp [brev]
  | succ s ih =>
    intro x i
    have hlt := brev_lt s (x / 2)
    have e : brev (s + 1) x = 2 ^ s * (x % 2) + brev s (x / 2) := by
      simp only [brev]; ring
    rw [e, Nat.testBit_mul_pow_two_add _ hlt]
    by_cases hi : i < s
    · have e1 : s + 1 - 1 - i = (s - 1 - i) + 1 := by omega
      rw [if_pos hi, ih, e1, Nat.testBit_add_one]
      simp [hi, Nat.lt_succ_of_lt hi]
    · rw [if_neg hi]
      by_cases his : i = s
      · subst his
        have h2 : x % 2 < 2 := Nat.mod_lt _ (by norm_num)
        simp only [Nat.sub_self, Nat.add_sub_cancel, Nat.lt_succ_self, decide_True,
          Bool.true_and, Nat.testBit_zero]
        congr 1
        simp
      · have h2 : x % 2 < 2 ^ (i - s) := by
          have : 2 ^ 1 ≤ 2 ^ (i - s) := Nat.pow_le_pow_right (by norm_num) (by omega)
          have h2 : x % 2 < 2 := Nat.mod_lt _ (by norm_num)
          omega
        have hni : ¬ i < s + 1 := by omega
        rw [Nat.testBit_lt_two_pow h2]
        simp [hni]

theorem brev_brev (s n : Nat) (hn : n < 2 ^ s) : brev s (brev s n) = n := by
  apply Nat.eq_of_testBit_eq
  intro i
  rw [brev_testBit, brev_testBit]
  by_cases hi : i < s
  · have e : s - 1 - (s - 1 - i) = i := by omega
    have h1 : s - 1 - i < s := by omega
    simp [hi, h1, e]
  · have h2 : n < 2 ^ i := lt_of_lt_of_le hn (Nat.pow_le_pow_right (by norm_num) (by omega))
    rw [Nat.testBit_lt_two_pow h2]
    simp [hi]

theorem brev_zero (s : Nat) : brev s 0 = 0 := by
  induction s with
  | zero => rfl
  | succ s ih => simp [brev, ih]

theorem brev_eq_zero (s n : Nat) (hn : n < 2 ^ s) (h : brev s n = 0) : n = 0 := by
  rw [← brev_brev s n hn, h, brev_zero]

/-- In exact integer arithmetic `FFT::rev(x, logN)` is the plain reversal
`brev` of the `logN` low bits of `x`: below `2^logN`, with bit `i` equal to
bit `logN - 1 - i` of `x`. -/
theorem rev_bit_reversal (x logN : Nat) :
    rev x logN = brev logN x ∧ rev x logN < 2 ^ logN ∧
    ∀ i, i < logN → (rev x logN).testBit i = x.testBit (logN - 1 - i) := by
  rw [rev_eq_brev]
  refine ⟨rfl, brev_lt logN x, fun i hi => ?_⟩
  rw [brev_testBit]
  simp [hi]

theorem rev32_step1_mod (y x : Nat) :
    rev32.step1 (y % 2 ^ 32, x) = ((rev.step1 (y, x)).1 % 2 ^ 32, (rev.step1 (y, x)).2) := by
  rw [step1_eq]
  unfold rev32.step1
  have h1 : x &&& 1 = x % 2 := Nat.and_one_is_mod x
  have h2 : x % 2 < 2 ^ 1 := Nat.mod_lt _ (by norm_num)
  have h3 := Nat.mul_add_lt_is_or h2 (y % 2147483648)
  have h4 : (y % 2 ^ 32) * 2 ^ 1 % 2 ^ 32 = 2 ^ 1 * (y % 2147483648) := by omega
  simp only [h1, Nat.shiftLeft_eq, Nat.shiftRight_eq_div_pow]
  rw [h4, ← h3]
  refine Prod.ext ?_ rfl
  show 2 ^ 1 * (y % 2147483648) + x % 2 = (y * 2 + x % 2) % 2 ^ 32
  omega

theorem rev32_step4_mod (y x : Nat) :
    rev32.step4 (y % 2 ^ 32, x) = ((rev.step4 (y, x)).1 % 2 ^ 32, (rev.step4 (y, x)).2) := by
  rw [step4_eq, step1_iterate]
  unfold rev32.step4
  have h1 : x &&& 15 = x % 16 := Nat.and_pow_two_sub_one_eq_mod x 4
  have h2 : brev 4 x < 2 ^ 4 := brev_lt 4 x
  have h3 := Nat.mul_add_lt_is_or h2 (y % 268435456)
  have h4 : (y % 2 ^ 32) * 2 ^ 4 % 2 ^ 32 = 2 ^ 4 * (y % 268435456) := by omega
  simp only [h1, rev4_eq, Nat.shiftLeft_eq, Nat.shiftRight_eq_div_pow]
  rw [h4, ← h3]
  refine Prod.ext ?_ rfl
  show 2 ^ 4 * (y % 268435456) + brev 4 x = (y * 2 ^ 4 + brev 4 x) % 2 ^ 32
  omega

theorem iterate_mod (fw f : Nat × Nat → Nat × Nat)
    (h : ∀ y x, fw (y % 2 ^ 32, x) = ((f (y, x)).1 % 2 ^ 32, (f (y, x)).2)) (c : Nat) :
    ∀ y x, fw^[c] (y % 2 ^ 32, x) = ((f^[c] (y, x)).1 % 2 ^ 32, (f^[c] (y, x)).2) := by
  induction c with
  | zero => intro y x; rfl
  | succ c ih =>
    intro y x
    rw [Function.iterate_succ_apply, Function.iterate_succ_apply, h, ih]

/-- On 32-bit `int`s `FFT::rev` returns the plain reversal reduced to 32 bits
and read as a two's complement value. -/
theorem rev32_eq (x logN : Nat) : rev32 x logN = toInt32 (brev logN x % 2 ^ 32) := by
  unfold rev32
  have e0 : ((0 : Nat), x) = (0 % 2 ^ 32, x) := rfl
  rw [e0, iterate_mod _ _ rev32_step4_mod, iterate_mod _ _ rev32_step1_mod]
  show toInt32 (rev x logN % 2 ^ 32) = _
  rw [rev_eq_brev]

/-- For `logN ≤ 31` no shift of `FFT::rev` wraps: the exact value is the
value on 32-bit `int`s. -/
theorem rev32_eq_rev (x logN : Nat) (h : logN ≤ 31) : rev32 x logN = (rev x logN : Int) := by
  rw [rev32_eq, rev_eq_brev]
  have h1 := brev_lt logN x
  have h2 : 2 ^ logN ≤ 2 ^ 31 := Nat.pow_le_pow_right (by norm_num) h
  have h3 : brev logN x < 2147483648 := by omega
  rw [Nat.mod_eq_of_lt (by omega)]
  unfold toInt32 Int.bmod
  generalize brev logN x = b at h3
  simp only
  omega

set_option linter.unusedSectionVars false

variable {C : Type} [CommRing C]

/-- The outer loop makes no access out of range when the vector has `2^L`
elements and the table at least `2^L / 2`. -/
theorem sLoop_safe (L : Nat) (Omega : List C) (hΩ : 2 ^ L / 2 ≤ Omega.length) (x : List C)
    (hx : x.length = 2 ^ L) :
    ∀ s d, s + d = L →
      ∃ y, (List.range s).foldlM (sBody Omega (2 ^ L)) { x := x, m := 2, m2 := 1, r := 2 ^ L }
          = some { x := y, m := 2 ^ (s + 1), m2 := 2 ^ s, r := 2 ^ d } ∧
        y.length = 2 ^ L := by
  intro s
  induction s with
  | zero =>
    intro d hd
    have hd' : d = L := by omega
    subst hd'
    exact ⟨x, by simp, hx⟩
  | succ s ih =>
    intro d hd
    obtain ⟨y0, hy0, hl0⟩ := ih (d + 1) (by omega)
    have hN : 2 ^ L = 2 ^ d * (2 * 2 ^ s) := by
      rw [← hd]; ring
    have hΩ' : ∀ e, e < 2 ^ s →
        Omega[e * 2 ^ d]? = some ((fun e => Omega.getD (e * 2 ^ d) 0) e) := by
      intro e he
      apply getElem?_eq_some_getD
      have h1 : e * 2 ^ d < 2 ^ s * 2 ^ d := Nat.mul_lt_mul_of_pos_right he (by positivity)
      have e3 : 2 ^ d * (2 * 2 ^ s) = 2 * (2 ^ s * 2 ^ d) := by ring
      rw [hN, e3] at hΩ
      omega
    obtain ⟨y, hy, hl, _⟩ := sBody_spec Omega (fun e => Omega.getD (e * 2 ^ d) 0) (2 ^ s)
      (2 ^ d) (2 ^ d) s (by positivity) hΩ' y0 (by rw [hl0, hN])
    refine ⟨y, ?_, by rw [hl, hl0]⟩
    rw [List.range_succ, List.foldlM_append, hy0]
    simp only [Option.bind_eq_bind, Option.some_bind, List.foldlM_cons, List.foldlM_nil]
    have e1 : (2 : Nat) ^ (s + 1) = 2 * 2 ^ s := by ring
    have e2 : (2 : Nat) ^ (d + 1) = 2 * 2 ^ d := by ring
    have e3 : (2 : Nat) ^ (s + 1 + 1) = 2 * (2 * 2 ^ s) := by ring
    rw [e1, e2, e3, hN, hy]
    rfl

/-- A call on `2^L` elements with statics that name the size `2^L`, `logN = L`
and a table of at least `2^L / 2` entries makes no access out of range. -/
theorem fft_safe (cis : Nat → Nat → C) (L : Nat) (c : Cache C) (hN : c.N = 2 ^ L)
    (hlog : c.logN = L) (hΩ : 2 ^ L / 2 ≤ c.Omega.length) (x : List C) (hx : x.length = 2 ^ L) :
    ∃ y, fft cis c x = some (c, y) ∧ y.length = 2 ^ L := by
  obtain ⟨y, hy, hl⟩ := sLoop_safe L c.Omega hΩ x hx L 0 (by omega)
  refine ⟨y, ?_, hl⟩
  unfold fft
  have h : ¬ c.N ≠ x.length := by rw [hN, hx]; simp
  simp only [if_neg h]
  rw [hN, hlog, hy]
  rfl

end FFT

/-! ## The spectral transform: properties of the specification -/

namespace FFT

/-- C1, as amended (transform of a bit-reversed input).  Over exact complex
numbers, for `N = 2^L`: when the caller has stored the sequence `y` in
bit-reversed order, `x[rev(n, L)] = y[n]` for every `n < N`, `fft` overwrites
`x` so that the element at index `k` is the sum over `n < N` of
`y[n] * exp(-2πi·n·k/N)`, the unnormalised transform of `y` in natural bin
order. -/
theorem fft_dft_of_bit_reversed (cis : Nat → Nat → ℂ) (hcis : IsPolar cis) (L : Nat)
    (c : Cache ℂ) (hc : c.Valid cis) (x y : List ℂ) (hx : x.length = 2 ^ L)
    (hxy : ∀ n, n < 2 ^ L → x.getD (rev n L) 0 = y.getD n 0) :
    ∃ c1 z, fft cis c x = some (c1, z) ∧ z.length = 2 ^ L ∧
      ∀ k, k < 2 ^ L →
        z.getD k 0 = Finset.sum (Finset.range (2 ^ L))
          (fun n => y.getD n 0 * Complex.exp (-2 * Real.pi * Complex.I * n * k / 2 ^ L)) := by
  obtain ⟨z, hz, hl, hp⟩ := fft_complex cis hcis L c hc x hx
  refine ⟨_, z, hz, hl, fun k hk => ?_⟩
  rw [hp k hk]
  apply Finset.sum_congr rfl
  intro n hn
  rw [hxy n (Finset.mem_range.1 hn)]

/-- Witness of C1 as amended: `y = [0, 1, 0, 0]` stored in bit-reversed order as `x = [0, 0, 1, 0]`. -/
theorem fft_dft_of_bit_reversed_witness :
    IsPolar (fun s N : Nat =>
      Complex.exp ((((-2 * Real.pi) * (s : ℝ) / (N : ℝ) : ℝ) : ℂ) * Complex.I)) ∧
    ([0, 0, 1, 0] : List ℂ).length = 2 ^ 2 ∧
    (∀ n, n < 2 ^ 2 → ([0, 0, 1, 0] : List ℂ).getD (rev n 2) 0 = ([0, 1, 0, 0] : List ℂ).getD n 0) ∧
    ∃ c1 z, fft (fun s N : Nat =>
          Complex.exp ((((-2 * Real.pi) * (s : ℝ) / (N : ℝ) : ℝ) : ℂ) * Complex.I))
        (Cache.empty ℂ) [0, 0, 1, 0] = some (c1, z) ∧ z.length = 2 ^ 2 ∧
      ∀ k, k < 2 ^ 2 →
        z.getD k 0 = Finset.sum (Finset.range (2 ^ 2))
          (fun n => ([0, 1, 0, 0] : List ℂ).getD n 0
            * Complex.exp (-2 * Real.pi * Complex.I * n * k / 2 ^ 2)) :=
  have hrev : ∀ n, n < 2 ^ 2 →
      ([0, 0, 1, 0] : List ℂ).getD (rev n 2) 0 = ([0, 1, 0, 0] : List ℂ).getD n 0 := by
    intro n hn
    have h0 : rev 0 2 = 0 := by decide
    have h1 : rev 1 2 = 2 := by decide
    have h2 : rev 2 2 = 1 := by decide
    have h3 : rev 3 2 = 3 := by decide
    have hn4 : n < 4 := by simpa using hn
    interval_cases n <;> simp [h0, h1, h2, h3]
  ⟨fun _ _ => rfl, rfl, hrev,
    fft_dft_of_bit_reversed _ (fun _ _ => rfl) 2 (Cache.empty ℂ) (Cache.Valid_empty _)
      [0, 0, 1, 0] [0, 1, 0, 0] rfl hrev⟩

/-- C1 as stated fails at `N = 4`, `x = [0, 1, 0, 0]`, `k = 1`: `fft` leaves
`-1` at index 1, while the transform of the input as given has
`exp(-2πi/4) = -i` there. -/
theorem fft_natural_order_counterexample :
    ∃ c1 z, fft (fun s N : Nat =>
          Complex.exp ((((-2 * Real.pi) * (s : ℝ) / (N : ℝ) : ℝ) : ℂ) * Complex.I))
        (Cache.empty ℂ) [0, 1, 0, 0] = some (c1, z) ∧
      z.getD 1 0 = -1 ∧
      Finset.sum (Finset.range 4)
          (fun n => ([0, 1, 0, 0] : List ℂ).getD n 0
            * Complex.exp (-2 * Real.pi * Complex.I * n * (1 : Nat) / 4)) = -Complex.I ∧
      z.getD 1 0 ≠ Finset.sum (Finset.range 4)
          (fun n => ([0, 1, 0, 0] : List ℂ).getD n 0
            * Complex.exp (-2 * Real.pi * Complex.I * n * (1 : Nat) / 4)) := by
  obtain ⟨z, hz, _, hp⟩ := fft_complex _ (fun _ _ => rfl) 2 (Cache.empty ℂ)
    (Cache.Valid_empty _) [0, 1, 0, 0] rfl
  have h0 : rev 0 2 = 0 := by decide
  have h1 : rev 1 2 = 2 := by decide
  have h2 : rev 2 2 = 1 := by decide
  have h3 : rev 3 2 = 3 := by decide
  have hz1 : z.getD 1 0 = -1 := by
    rw [hp 1 (by norm_num), show (2 : Nat) ^ 2 = 4 from rfl]
    simp only [Finset.sum_range_succ, Finset.sum_range_zero, h0, h1, h2, h3]
    simp
    have e : -(2 * (Real.pi : ℂ) * Complex.I * 2) / 2 ^ 2 = -(Real.pi * Complex.I) := by ring
    rw [e, Complex.exp_neg, Complex.exp_pi_mul_I]
    norm_num
  have hd : Finset.sum (Finset.range 4)
      (fun n => ([0, 1, 0, 0] : List ℂ).getD n 0
        * Complex.exp (-2 * Real.pi * Complex.I * n * (1 : Nat) / 4)) = -Complex.I := by
    simp only [Finset.sum_range_succ, Finset.sum_range_zero]
    simp
    have e : -(2 * (Real.pi : ℂ) * Complex.I) / 4 = ((-(Real.pi / 2) : ℝ) : ℂ) * Complex.I := by
      push_cast; ring
    rw [e, Complex.exp_mul_I, ← Complex.ofReal_cos, ← Complex.ofReal_sin, Real.cos_neg,
      Real.sin_neg, Real.cos_pi_div_two, Real.sin_pi_div_two]
    simp
  refine ⟨_, z, hz, hz1, hd, ?_⟩
  rw [hz1, hd]
  intro h
  have := congrArg Complex.re h
  simp at this

/-- C9 (coefficient cache validity).  Over exact complex numbers, in every
sequence of `fft` calls on inputs whose lengths are powers of two, starting
from the statics as initialised, each call returns what the same call returns
from fresh statics; and the statics each call runs its butterfly loop with
have `N` equal to the length of the vector, `logN = log2(N)` and a table of
`N` entries with `table[s] = exp(-2πi·s/N)`. -/
theorem fft_cache_valid (cis : Nat → Nat → ℂ) (hcis : IsPolar cis) (xs : List (List ℂ))
    (hxs : ∀ x ∈ xs, ∃ L : Nat, x.length = 2 ^ L) :
    fftSeq cis (Cache.empty ℂ) xs = xs.map (fft cis (Cache.empty ℂ)) ∧
    ∀ r ∈ fftSeq cis (Cache.empty ℂ) xs,
      ∃ c y, r = some (c, y) ∧ c.N = y.length ∧ c.logN = log2 c.N ∧ c.Omega.length = c.N ∧
        ∀ s, s < c.N →
          c.Omega[s]? = some (Complex.exp (-2 * Real.pi * Complex.I * s / c.N)) := by
  have h1 := fftSeq_fresh cis hcis xs (Cache.empty ℂ) (Cache.Valid_empty cis) hxs
  refine ⟨h1, ?_⟩
  intro r hr
  rw [h1, List.mem_map] at hr
  obtain ⟨x, hx, rfl⟩ := hr
  obtain ⟨L, hL⟩ := hxs x hx
  obtain ⟨y, hy, hl, _⟩ := fft_complex cis hcis L _ (Cache.Valid_empty cis) x hL
  refine ⟨_, y, hy, hl.symm, (log2_two_pow L).symm, by simp, ?_⟩
  intro s hs
  have hs' : s < 2 ^ L := hs
  show ((List.range (2 ^ L)).map (fun s => cis s (2 ^ L)))[s]? = _
  rw [List.getElem?_map, List.getElem?_range hs', Option.map_some', hcis s (2 ^ L)]
  congr 2
  push_cast
  ring

/-- Witness of C9: calls on vectors of sizes 2, 4 and 2 in turn. -/
theorem fft_cache_valid_witness :
    IsPolar (fun s N : Nat =>
      Complex.exp ((((-2 * Real.pi) * (s : ℝ) / (N : ℝ) : ℝ) : ℂ) * Complex.I)) ∧
    (∀ x ∈ ([[1, 2], [1, 2, 3, 4], [3, 4]] : List (List ℂ)), ∃ L : Nat, x.length = 2 ^ L) ∧
    fftSeq (fun s N : Nat =>
        Complex.exp ((((-2 * Real.pi) * (s : ℝ) / (N : ℝ) : ℝ) : ℂ) * Complex.I))
      (Cache.empty ℂ) [[1, 2], [1, 2, 3, 4], [3, 4]]
      = ([[1, 2], [1, 2, 3, 4], [3, 4]] : List (List ℂ)).map
        (fft (fun s N : Nat =>
          Complex.exp ((((-2 * Real.pi) * (s : ℝ) / (N : ℝ) : ℝ) : ℂ) * Complex.I))
          (Cache.empty ℂ)) :=
  have hxs : ∀ x ∈ ([[1, 2], [1, 2, 3, 4], [3, 4]] : List (List ℂ)),
      ∃ L : Nat, x.length = 2 ^ L := by
    intro x hx
    simp only [List.mem_cons, List.mem_singleton, List.not_mem_nil, or_false] at hx
    rcases hx with rfl | rfl | rfl
    · exact ⟨1, rfl⟩
    · exact ⟨2, rfl⟩
    · exact ⟨1, rfl⟩
  ⟨fun _ _ => rfl, hxs, (fft_cache_valid _ (fun _ _ => rfl) _ hxs).1⟩

end FFT

namespace FFT

/-- C11 (unit impulse, no normalisation).  Over exact complex numbers, for
every `N = 2^L`, `fft` applied to the vector with `x[0] = 1` and `x[n] = 0`
for `0 < n < N` yields the vector of `N` ones: no `1/N` scaling is applied. -/
theorem fft_unit_impulse (cis : Nat → Nat → ℂ) (hcis : IsPolar cis) (L : Nat)
    (c : Cache ℂ) (hc : c.Valid cis) :
    ∃ c1, fft cis c (1 :: List.replicate (2 ^ L - 1) 0) = some (c1, List.replicate (2 ^ L) 1) := by
  have hpos : 0 < 2 ^ L := by positivity
  have hx : ((1 : ℂ) :: List.replicate (2 ^ L - 1) 0).length = 2 ^ L := by
    simp only [List.length_cons, List.length_replicate]; omega
  have hget : ∀ m, ((1 : ℂ) :: List.replicate (2 ^ L - 1) 0).getD m 0 = if m = 0 then 1 else 0 := by
    intro m
    cases m with
    | zero => simp
    | succ m =>
      rw [List.getD_cons_succ, List.getD_eq_getElem?_getD, List.getElem?_replicate]
      split <;> simp
  obtain ⟨z, hz, hl, hp⟩ := fft_complex cis hcis L c hc _ hx
  suffices hzr : z = List.replicate (2 ^ L) 1 from ⟨_, hzr ▸ hz⟩
  rw [List.eq_replicate_iff]
  refine ⟨hl, ?_⟩
  intro b hb
  obtain ⟨k, hk, rfl⟩ := List.getElem_of_mem hb
  have hk' : k < 2 ^ L := by rw [← hl]; exact hk
  have e : z[k] = z.getD k 0 := by
    rw [List.getD_eq_getElem?_getD, List.getElem?_eq_getElem hk]; rfl
  rw [e, hp k hk', Finset.sum_eq_single 0]
  · rw [hget, rev_eq_brev, brev_zero]
    simp
  · intro n hn hn0
    rw [hget, rev_eq_brev, if_neg, zero_mul]
    intro h0
    exact hn0 (brev_eq_zero L n (Finset.mem_range.1 hn) h0)
  · intro h0
    exact absurd (Finset.mem_range.2 hpos) h0

/-- Witness of C11: the sizes 2, 4, 8, 256 and 1024. -/
theorem fft_unit_impulse_witness :
    IsPolar (fun s N : Nat =>
      Complex.exp ((((-2 * Real.pi) * (s : ℝ) / (N : ℝ) : ℝ) : ℂ) * Complex.I)) ∧
    ∀ L ∈ [1, 2, 3, 8, 10],
      ∃ c1, fft (fun s N : Nat =>
            Complex.exp ((((-2 * Real.pi) * (s : ℝ) / (N : ℝ) : ℝ) : ℂ) * Complex.I))
          (Cache.empty ℂ) (1 :: List.replicate (2 ^ L - 1) 0)
        = some (c1, List.replicate (2 ^ L) 1) :=
  ⟨fun _ _ => rfl, fun L _ =>
    fft_unit_impulse _ (fun _ _ => rfl) L (Cache.empty ℂ) (Cache.Valid_empty _)⟩

/-- C16, as amended (the bit-reversal helper on the 32-bit `int` of the
source).  For every `logN` with `0 ≤ logN ≤ 31` and every `x ≥ 0` (in
particular `0 ≤ x < 2^logN`), `FFT::rev(x, logN)`, which reverses four bits at
a time through `rev4` and the remaining bits one at a time, is the plain
reversal `brev` of the `logN` low bits of `x`: the result is not negative,
below `2^logN`, and its bit `i` is bit `logN - 1 - i` of `x`. -/
theorem rev32_bit_reversal (x logN : Nat) (hlog : logN ≤ 31) :
    rev32 x logN = ((brev logN x : Nat) : Int) ∧
    0 ≤ rev32 x logN ∧ rev32 x logN < 2 ^ logN ∧
    ∀ i, i < logN → (rev32 x logN).toNat.testBit i = x.testBit (logN - 1 - i) := by
  have e : rev32 x logN = ((brev logN x : Nat) : Int) := by
    rw [rev32_eq_rev x logN hlog, rev_eq_brev]
  have hlt := brev_lt logN x
  rw [e]
  refine ⟨rfl, Int.natCast_nonneg _, by exact_mod_cast hlt, fun i hi => ?_⟩
  rw [Int.toNat_natCast, brev_testBit]
  simp [hi]

/-- Witness of C16 as amended: `logN = 31`, the largest size, `x = 1`. -/
theorem rev32_bit_reversal_witness :
    (31 : Nat) ≤ 31 ∧ rev32 1 31 = ((brev 31 1 : Nat) : Int) ∧ rev32 1 31 < 2 ^ 31 :=
  ⟨by decide, (rev32_bit_reversal 1 31 (by decide)).1, (rev32_bit_reversal 1 31 (by decide)).2.2.1⟩

/-- C16 as stated fails at `logN = 32`, `x = 1`: the eighth `y <<= 4` takes
`2^27` into the sign bit and `FFT::rev` returns `-2147483648`, while the plain
reversal of the 32 low bits of 1 is `2147483648`.  At `logN = 33` the bit is
shifted out: `FFT::rev(1, 33)` is 0, the plain reversal is `2^32`, and bit 32
of the result is not bit 0 of `x`. -/
theorem rev32_overflow_counterexample :
    (1 : Nat) < 2 ^ 32 ∧ rev32 1 32 = -2147483648 ∧ brev 32 1 = 2147483648 ∧
    rev32 1 32 ≠ ((brev 32 1 : Nat) : Int) ∧
    rev32 1 33 = 0 ∧ brev 33 1 = 4294967296 ∧
    ¬ ((rev32 1 33).toNat.testBit 32 = (1 : Nat).testBit (33 - 1 - 32)) := by
  decide

/-- C18 (what `fft` computes on the input as given).  Over exact complex
numbers, for `N = 2^L` and a vector `x` of length `N`: after `fft` the element
at index `k` is the sum over `n < N` of `x[rev(n, L)] * exp(-2πi·n·k/N)`; and
`fft` applied to the vector permuted by `rev` (element `i` is `x[rev(i, L)]`)
yields the transform of `x` itself. -/
theorem fft_dft_rev_input (cis : Nat → Nat → ℂ) (hcis : IsPolar cis) (L : Nat)
    (c : Cache ℂ) (hc : c.Valid cis) (x : List ℂ) (hx : x.length = 2 ^ L) :
    (∃ c1 z, fft cis c x = some (c1, z) ∧ z.length = 2 ^ L ∧
      ∀ k, k < 2 ^ L →
        z.getD k 0 = Finset.sum (Finset.range (2 ^ L))
          (fun n => x.getD (rev n L) 0
            * Complex.exp (-2 * Real.pi * Complex.I * n * k / 2 ^ L))) ∧
    (∃ c1 z, fft cis c ((List.range (2 ^ L)).map (fun i => x.getD (rev i L) 0)) = some (c1, z) ∧
      z.length = 2 ^ L ∧
      ∀ k, k < 2 ^ L →
        z.getD k 0 = Finset.sum (Finset.range (2 ^ L))
          (fun n => x.getD n 0 * Complex.exp (-2 * Real.pi * Complex.I * n * k / 2 ^ L))) := by
  constructor
  · obtain ⟨z, hz, hl, hp⟩ := fft_complex cis hcis L c hc x hx
    exact ⟨_, z, hz, hl, hp⟩
  · obtain ⟨z, hz, hl, hp⟩ := fft_complex cis hcis L c hc
      ((List.range (2 ^ L)).map (fun i => x.getD (rev i L) 0)) (by simp)
    refine ⟨_, z, hz, hl, fun k hk => ?_⟩
    rw [hp k hk]
    apply Finset.sum_congr rfl
    intro n hn
    have hn' : n < 2 ^ L := Finset.mem_range.1 hn
    have hr : rev n L < 2 ^ L := by rw [rev_eq_brev]; exact brev_lt L n
    rw [List.getD_eq_getElem?_getD, List.getElem?_map, List.getElem?_range hr]
    simp only [Option.map_some', Option.getD_some]
    rw [rev_eq_brev, rev_eq_brev, brev_brev L n hn']

/-- Witness of C18: the vector `[1, 2, 3, 4]`. -/
theorem fft_dft_rev_input_witness :
    IsPolar (fun s N : Nat =>
      Complex.exp ((((-2 * Real.pi) * (s : ℝ) / (N : ℝ) : ℝ) : ℂ) * Complex.I)) ∧
    ([1, 2, 3, 4] : List ℂ).length = 2 ^ 2 ∧
    ∃ c1 z, fft (fun s N : Nat =>
          Complex.exp ((((-2 * Real.pi) * (s : ℝ) / (N : ℝ) : ℝ) : ℂ) * Complex.I))
        (Cache.empty ℂ) [1, 2, 3, 4] = some (c1, z) ∧ z.length = 2 ^ 2 ∧
      ∀ k, k < 2 ^ 2 →
        z.getD k 0 = Finset.sum (Finset.range (2 ^ 2))
          (fun n => ([1, 2, 3, 4] : List ℂ).getD (rev n 2) 0
            * Complex.exp (-2 * Real.pi * Complex.I * n * k / 2 ^ 2)) :=
  ⟨fun _ _ => rfl, rfl,
    (fft_dft_rev_input _ (fun _ _ => rfl) 2 (Cache.empty ℂ) (Cache.Valid_empty _)
      [1, 2, 3, 4] rfl).1⟩

variable {C : Type} [CommRing C]

/-- C20 (index safety of the butterfly loops).  For a vector of `N = 2^L`
elements (`N ≥ 1`) and consistent statics, `fft` returns: no read or write of
`x` at `k + j` or `k + j + m2` and no read of the table is out of range, the
table having `N` entries.  The same call with the table cut to its first
`N / 2` entries returns as well: every twiddle index `w` is below `N / 2`. -/
theorem fft_index_safe (cis : Nat → Nat → C) (L : Nat) (c : Cache C) (hc : c.Valid cis)
    (x : List C) (hx : x.length = 2 ^ L) :
    (∃ c1 y, fft cis c x = some (c1, y) ∧ c1.N = x.length ∧ c1.logN = log2 x.length ∧
      c1.Omega.length = x.length ∧ y.length = x.length) ∧
    (∃ c1 y, fft cis
        { Omega := ((List.range (2 ^ L)).map (fun s => cis s (2 ^ L))).take (2 ^ L / 2)
          N := 2 ^ L
          logN := L } x = some (c1, y) ∧
      c1.Omega.length = x.length / 2 ∧ y.length = x.length) := by
  constructor
  · have e : fft cis c x
        = fft cis { Omega := (List.range (2 ^ L)).map (fun s => cis s (2 ^ L))
                    N := 2 ^ L
                    logN := L } x := by
      have hv : Cache.Valid cis
          { Omega := (List.range (2 ^ L)).map (fun s => cis s (2 ^ L)), N := 2 ^ L, logN := L } :=
        ⟨(log2_two_pow L).symm, rfl⟩
      rw [fft_eval cis c hc, fft_eval cis _ hv]
    obtain ⟨y, hy, hl⟩ := fft_safe cis L
      { Omega := (List.range (2 ^ L)).map (fun s => cis s (2 ^ L)), N := 2 ^ L, logN := L }
      rfl rfl (by simp; omega) x hx
    refine ⟨_, y, e.trans hy, hx.symm, ?_, by simp [hx], by rw [hl, hx]⟩
    rw [hx, log2_two_pow]
  · obtain ⟨y, hy, hl⟩ := fft_safe cis L
      { Omega := ((List.range (2 ^ L)).map (fun s => cis s (2 ^ L))).take (2 ^ L / 2)
        N := 2 ^ L
        logN := L }
      rfl rfl (by simp; omega) x hx
    refine ⟨_, y, hy, ?_, by rw [hl, hx]⟩
    simp [hx]; omega

/-- Witness of C20: a vector of four integers. -/
theorem fft_index_safe_witness :
    Cache.Valid (fun _ _ => (1 : Int)) (Cache.empty Int) ∧
    ([1, 2, 3, 4] : List Int).length = 2 ^ 2 ∧
    ∃ c1 y, fft (fun _ _ => (1 : Int)) (Cache.empty Int) [1, 2, 3, 4] = some (c1, y) ∧
      c1.N = ([1, 2, 3, 4] : List Int).length ∧ c1.logN = log2 ([1, 2, 3, 4] : List Int).length ∧
      c1.Omega.length = ([1, 2, 3, 4] : List Int).length ∧
      y.length = ([1, 2, 3, 4] : List Int).length :=
  ⟨Cache.Valid_empty _, rfl,
    (fft_index_safe (fun _ _ => (1 : Int)) 2 (Cache.empty Int) (Cache.Valid_empty _)
      [1, 2, 3, 4] rfl).1⟩

end FFT

/-! ## The device lifecycle: properties of the specification -/

namespace AIRSPYHF

/-- C12 (stream-loss detection).  With the hardware flag `h` read by
`airspyhf_is_streaming`, `AIRSPYHF::isStreaming` returns true exactly when
the state is `Streaming` and `h = 1`; when the state is `Streaming` and
`h ≠ 1` it sets `lost` and returns false; otherwise `lost` keeps its value;
the state, and every member but `lost`, is never changed. -/
theorem isStreaming_spec (d : Device) (h : Int) :
    ((isStreaming d h h).1 = true ↔ (d.state = DeviceState.Streaming ∧ h = 1)) ∧
    (d.state = DeviceState.Streaming → h ≠ 1 →
      (isStreaming d h h).2.lost = true ∧ (isStreaming d h h).1 = false) ∧
    (¬ (d.state = DeviceState.Streaming ∧ h ≠ 1) → (isStreaming d h h).2.lost = d.lost) ∧
    (d.lost = true → (isStreaming d h h).2.lost = true) ∧
    (isStreaming d h h).2.state = d.state ∧
    (isStreaming d h h).2 = { d with lost := (isStreaming d h h).2.lost } := by
  obtain ⟨st, l, sr, cs⟩ := d
  unfold isStreaming Device.isStreaming
  by_cases hs : st = DeviceState.Streaming <;> by_cases hh : h = 1 <;>
    simp [hs, hh]

end AIRSPYHF

/-- C13 (close while streaming), against the base class modelled from the
specification.  For both backends, `Close()` called in state `Streaming`
issues the vendor stop call and then the vendor close call, in this order
and nothing else; the state has left `Streaming` when the stop call is
issued, and is `Closed` at the end. -/
theorem Close_stops_first (d : Device) (h : HACKRF) (hd : d.state = DeviceState.Streaming)
    (hh : h.base.state = DeviceState.Streaming) :
    (AIRSPYHF.Close d).calls = d.calls ++ [VendorCall.airspyhf_stop, VendorCall.airspyhf_close] ∧
    (AIRSPYHF.Stop d).calls = d.calls ++ [VendorCall.airspyhf_stop] ∧
    (AIRSPYHF.Stop d).state = DeviceState.Stopped ∧
    (AIRSPYHF.Close d).state = DeviceState.Closed ∧
    (HACKRF.Close h).base.calls
      = h.base.calls ++ [VendorCall.hackrf_stop_rx, VendorCall.hackrf_close] ∧
    (HACKRF.Stop h.base).calls = h.base.calls ++ [VendorCall.hackrf_stop_rx] ∧
    (HACKRF.Stop h.base).state = DeviceState.Stopped ∧
    (HACKRF.Close h).base.state = DeviceState.Closed := by
  simp [AIRSPYHF.Close, AIRSPYHF.Stop, HACKRF.Close, HACKRF.Stop, Device.Close, Device.Stop,
    Device.isStreaming, hd, hh]

/-- Witness of C13: a streaming device that has issued no vendor call. -/
theorem Close_stops_first_witness :
    (⟨DeviceState.Streaming, false, 192000, []⟩ : Device).state = DeviceState.Streaming ∧
    (⟨⟨DeviceState.Streaming, false, 6000000, []⟩, none, 0, 0, false⟩ : HACKRF).base.state
      = DeviceState.Streaming ∧
    (AIRSPYHF.Close ⟨DeviceState.Streaming, false, 192000, []⟩).calls
      = [VendorCall.airspyhf_stop, VendorCall.airspyhf_close] ∧
    (HACKRF.Close ⟨⟨DeviceState.Streaming, false, 6000000, []⟩, none, 0, 0, false⟩).base.calls
      = [VendorCall.hackrf_stop_rx, VendorCall.hackrf_close] :=
  ⟨rfl, rfl,
    (Close_stops_first ⟨DeviceState.Streaming, false, 192000, []⟩
      ⟨⟨DeviceState.Streaming, false, 6000000, []⟩, none, 0, 0, false⟩ rfl rfl).1,
    (Close_stops_first ⟨DeviceState.Streaming, false, 192000, []⟩
      ⟨⟨DeviceState.Streaming, false, 6000000, []⟩, none, 0, 0, false⟩ rfl rfl).2.2.2.2.1⟩

namespace HACKRF

/-- C15 (wrong handle), the source at a failing input.  With one enumerated
device (`devicecount = 1`, one serial number) and the handle `h = 1`, which is
no index of the list, the guard `h > list->devicecount` does not throw and
`Open` reads `serial_numbers[1]`, outside the array; a handle above
`devicecount` is rejected with the open error and the device unchanged. -/
theorem Open_handle_devicecount (open_by_serial : Option String → Bool) (b : Device)
    (lna vga : Int) (p : Bool) :
    ¬ (1 < (⟨[some "0000000000000000"], 1⟩ : hackrf_device_list).serial_numbers.length) ∧
    Open open_by_serial ⟨b, some ⟨[some "0000000000000000"], 1⟩, lna, vga, p⟩ 1 = none ∧
    Open open_by_serial ⟨b, some ⟨[some "0000000000000000"], 1⟩, lna, vga, p⟩ 2
      = some (Except.error "HACKRF: cannot open device.") := by
  refine ⟨by decide, ?_, ?_⟩
  · simp [Open]
  · simp [Open]

/-- C17 (gain steps).  In `HACKRF::Set`, for a parsed LNA value `v` in
`[0, 40]` the stored `LNA_Gain` is `((v + 4) / 8) * 8`, a multiple of 8 in
`[0, 40]` within 4 of `v`; for a parsed VGA value `w` in `[0, 62]` the stored
`VGA_Gain` is `((w + 1) / 2) * 2`, a multiple of 2 in `[0, 62]` within 1 of
`w`. -/
theorem Set_gain_steps (U : Util) (d : HACKRF) (optL argL optV argV : String) (v w : Int)
    (hoL : U.toUpper optL = "LNA") (hpL : U.Integer (U.toUpper argL) 0 40 = Except.ok v)
    (hv0 : 0 ≤ v) (hv1 : v ≤ 40)
    (hoV : U.toUpper optV = "VGA") (hpV : U.Integer (U.toUpper argV) 0 62 = Except.ok w)
    (hw0 : 0 ≤ w) (hw1 : w ≤ 62) :
    (∃ d1, Set U d optL argL = Except.ok d1 ∧ d1.LNA_Gain = ((v + 4) / 8) * 8 ∧
      d1.LNA_Gain % 8 = 0 ∧ 0 ≤ d1.LNA_Gain ∧ d1.LNA_Gain ≤ 40 ∧ |d1.LNA_Gain - v| ≤ 4) ∧
    (∃ d1, Set U d optV argV = Except.ok d1 ∧ d1.VGA_Gain = ((w + 1) / 2) * 2 ∧
      d1.VGA_Gain % 2 = 0 ∧ 0 ≤ d1.VGA_Gain ∧ d1.VGA_Gain ≤ 62 ∧ |d1.VGA_Gain - w| ≤ 1) := by
  constructor
  · have e : (v + 4).tdiv 8 = (v + 4) / 8 := Int.tdiv_eq_ediv (by omega) (by norm_num)
    refine ⟨{ d with LNA_Gain := ((v + 4) / 8) * 8 }, ?_, rfl, ?_, ?_, ?_, ?_⟩
    · simp [Set, hoL, hpL, Except.map, e]
    · show ((v + 4) / 8) * 8 % 8 = 0
      omega
    · show 0 ≤ ((v + 4) / 8) * 8
      omega
    · show ((v + 4) / 8) * 8 ≤ 40
      omega
    · show |((v + 4) / 8) * 8 - v| ≤ 4
      rw [abs_le]; constructor <;> omega
  · have e : (w + 1).tdiv 2 = (w + 1) / 2 := Int.tdiv_eq_ediv (by omega) (by norm_num)
    refine ⟨{ d with VGA_Gain := ((w + 1) / 2) * 2 }, ?_, rfl, ?_, ?_, ?_, ?_⟩
    · simp [Set, hoV, hpV, Except.map, e]
    · show ((w + 1) / 2) * 2 % 2 = 0
      omega
    · show 0 ≤ ((w + 1) / 2) * 2
      omega
    · show ((w + 1) / 2) * 2 ≤ 62
      omega
    · show |((w + 1) / 2) * 2 - w| ≤ 1
      rw [abs_le]; constructor <;> omega

/-- Witness of C17: the parsed value 37 for both gains, stored as 40 (LNA)
and 38 (VGA). -/
theorem Set_gain_steps_witness :
    (0 : Int) ≤ 37 ∧ (37 : Int) ≤ 40 ∧ (37 : Int) ≤ 62 ∧
    (∃ d1, Set ⟨fun s => s, fun _ _ _ => Except.ok 37, fun _ => Except.ok true⟩
        ⟨⟨DeviceState.Opened, false, 6000000, []⟩, none, 0, 0, false⟩ "LNA" "37" = Except.ok d1 ∧
      d1.LNA_Gain = ((37 + 4) / 8) * 8) ∧
    (∃ d1, Set ⟨fun s => s, fun _ _ _ => Except.ok 37, fun _ => Except.ok true⟩
        ⟨⟨DeviceState.Opened, false, 6000000, []⟩, none, 0, 0, false⟩ "VGA" "37" = Except.ok d1 ∧
      d1.VGA_Gain = ((37 + 1) / 2) * 2) :=
  have h := Set_gain_steps ⟨fun s => s, fun _ _ _ => Except.ok 37, fun _ => Except.ok true⟩
    ⟨⟨DeviceState.Opened, false, 6000000, []⟩, none, 0, 0, false⟩ "LNA" "37" "VGA" "37" 37 37
    rfl rfl (by decide) (by decide) rfl rfl (by decide) (by decide)
  ⟨by decide, by decide, by decide,
    h.1.imp fun _ hd => ⟨hd.1, hd.2.1⟩, h.2.imp fun _ hd => ⟨hd.1, hd.2.1⟩⟩

end HACKRF
